import Mathlib

/-!
Shallow embedding of `healthchecks_decorator/decorator.py` together with the
parts of CPython's standard library it relies on (`urllib.parse.urlparse`,
`urlunparse`, `urlencode`, `urllib.request.urlopen`'s scheme dispatch).
Strings are modelled as `List Char`; environment variables as a partial map;
the wrapper as a function producing the list of HTTP requests issued and the
call's outcome.  Exceptions are modelled with `Except`.
-/

namespace HCD

abbrev Chars := List Char

/-- Splits a list at the first character satisfying `p`: returns the prefix of
characters not satisfying `p` and, when a match exists, the matching character
together with the remainder after it. -/
def splitAtFirst (p : Char → Bool) : Chars → Chars × Option (Char × Chars)
  | [] => ([], none)
  | c :: cs =>
    if p c then ([], some (c, cs))
    else
      match splitAtFirst p cs with
      | (a, rest) => (c :: a, rest)

/-- Characters removed by `urllib.parse.urlsplit` before parsing
(`_UNSAFE_URL_BYTES_TO_REMOVE` = tab, carriage return, newline). -/
def isRemovedCtl (c : Char) : Bool := c == '\t' || c == '\r' || c == '\n'

/-- Removal of tab/CR/LF performed at the start of `urlsplit`. -/
def removeCtl (l : Chars) : Chars := l.filter (fun c => !(isRemovedCtl c))

/-- Python `_WHATWG_C0_CONTROL_OR_SPACE` membership: code points 0x00..0x20. -/
def isC0OrSpace (c : Char) : Bool := c.toNat ≤ 32

/-- Python `url.lstrip(_WHATWG_C0_CONTROL_OR_SPACE)` performed by `urlsplit`. -/
def lstripC0 (l : Chars) : Chars := l.dropWhile isC0OrSpace

/-- Python `scheme_chars`: ASCII letters, digits, `+`, `-`, `.`. -/
def isSchemeChar (c : Char) : Bool :=
  c.isAlpha || c.isDigit || c == '+' || c == '-' || c == '.'

/-- Head character is an ASCII letter (Python `url[0].isascii() and url[0].isalpha()`). -/
def headIsAlpha : Chars → Bool
  | [] => false
  | c :: _ => c.isAlpha

/-- Scheme extraction step of `urlsplit`: if the text before the first `:` is a
nonempty run of scheme characters starting with a letter, it is the scheme
(lower-cased) and parsing continues after the colon; otherwise no scheme. -/
def schemeSplit (l : Chars) : Chars × Chars :=
  match splitAtFirst (fun c => c == ':') l with
  | (pre, some (_, rest)) =>
    if !pre.isEmpty && headIsAlpha pre && pre.all isSchemeChar then
      (pre.map Char.toLower, rest)
    else ([], l)
  | (_, none) => ([], l)

/-- Delimiters ending the network-location component (`_splitnetloc` stops at
the first of `/`, `?`, `#`). -/
def isNetlocEnd (c : Char) : Bool := c == '/' || c == '?' || c == '#'

/-- Python `_splitnetloc(url, 2)` applied after the `//` marker was dropped. -/
def netlocSplit (l : Chars) : Chars × Chars :=
  (l.takeWhile (fun c => !(isNetlocEnd c)), l.dropWhile (fun c => !(isNetlocEnd c)))

/-- Mismatched-square-bracket test on the netloc; when true, `urlsplit` raises
`ValueError("Invalid IPv6 URL")`. -/
def bracketMismatch (n : Chars) : Bool := (n.contains '[') != (n.contains ']')

/-- ASCII hexadecimal digit (`ipaddress` `_HEX_DIGITS`). -/
def isHexDigitCh (c : Char) : Bool :=
  c.isDigit || ('a' ≤ c && c ≤ 'f') || ('A' ≤ c && c ≤ 'F')

/-- Value of a string of ASCII decimal digits. -/
def decimalVal (s : Chars) : Nat := s.foldl (fun a c => 10 * a + (c.toNat - 48)) 0

/-- `ipaddress._BaseV4._parse_octet` succeeds: nonempty, ASCII digits only, at
most 3 characters, no leading zero (except "0" itself), value at most 255. -/
def octetOk (s : Chars) : Bool :=
  !s.isEmpty && s.all Char.isDigit && decide (s.length ≤ 3) &&
  ((s == ['0']) || !(s.headD ' ' == '0')) && decide (decimalVal s ≤ 255)

/-- `IPv4Address(s)` on a string succeeds: no `/`, nonempty, exactly four
valid octets separated by dots. -/
def ipv4AddrOk (s : Chars) : Bool :=
  !s.contains '/' && !s.isEmpty &&
  (let parts := s.splitOn '.'
   parts.length == 4 && parts.all octetOk)

/-- Numeric value of a valid dotted-quad IPv4 string. -/
def ipv4Val (s : Chars) : Nat :=
  match s.splitOn '.' with
  | [a, b, c, d] =>
    decimalVal a * 16777216 + decimalVal b * 65536 + decimalVal c * 256 + decimalVal d
  | _ => 0

/-- `ipaddress._BaseV6._parse_hextet` succeeds: nonempty (an empty hextet
makes `int("", 16)` raise), hexadecimal digits only, at most 4 characters. -/
def hextetOk (s : Chars) : Bool :=
  s.all isHexDigitCh && decide (s.length ≤ 4) && !s.isEmpty

/-- Replacement of a trailing IPv4-style suffix with two hextets, as performed
by `_BaseV6._ip_int_from_string`; `none` when the suffix is not a valid IPv4
address. -/
def ipv6PartsAfterV4 (parts : List Chars) : Option (List Chars) :=
  match parts.getLast? with
  | none => some parts
  | some lastP =>
    if lastP.contains '.' then
      if ipv4AddrOk lastP then
        some (parts.dropLast ++
          [Nat.toDigits 16 (ipv4Val lastP / 65536), Nat.toDigits 16 (ipv4Val lastP % 65536)])
      else none
    else some parts

/-- Structural `::` validation of `_BaseV6._ip_int_from_string` after the IPv4
suffix step: at most one interior empty part; a leading or trailing colon only
as part of a `::`; without `::` exactly 8 hextets, with `::` at most 7. -/
def ipv6StructOk (ps : List Chars) : Bool :=
  let n := ps.length
  let interior := (ps.drop 1).dropLast
  decide (n ≤ 9) &&
  (match interior.countP (fun p => p.isEmpty) with
   | 0 => n == 8 && ps.all hextetOk
   | 1 =>
     let skip := interior.findIdx (fun p => p.isEmpty) + 1
     let firstEmpty := (ps.headD []).isEmpty
     let lastEmpty := (ps.getLastD []).isEmpty
     let hi := if firstEmpty then skip - 1 else skip
     let lo := if lastEmpty then n - skip - 2 else n - skip - 1
     (!firstEmpty || hi == 0) && (!lastEmpty || lo == 0) &&
     decide (hi + lo ≤ 7) &&
     (ps.take hi).all hextetOk && (ps.drop (n - lo)).all hextetOk
   | _ => false)

/-- `_BaseV6._ip_int_from_string` succeeds on the (scope-free) address text. -/
def ipv6IntOk (str : Chars) : Bool :=
  !str.isEmpty &&
  (let parts := str.splitOn ':'
   decide (3 ≤ parts.length) &&
   (match ipv6PartsAfterV4 parts with
    | none => false
    | some ps => ipv6StructOk ps))

/-- `IPv6Address(s)` on a string succeeds: no `/`, optional nonempty `%scope`
free of further `%`, and a structurally valid address. -/
def ipv6AddrOk (s : Chars) : Bool :=
  !s.contains '/' &&
  (match splitAtFirst (fun c => c == '%') s with
   | (addr, some (_, scope)) => !scope.isEmpty && !scope.contains '%' && ipv6IntOk addr
   | (addr, none) => ipv6IntOk addr)

/-- Text between the first `[` and the following `]` of the netloc
(`netloc.partition('[')[2].partition(']')[0]`). -/
def bracketContent (n : Chars) : Chars :=
  match splitAtFirst (fun c => c == '[') n with
  | (_, some (_, after)) =>
    match splitAtFirst (fun c => c == ']') after with
    | (beforeR, _) => beforeR
  | _ => []

/-- `_check_bracketed_host` passes: an IPvFuture literal `v<hex>+.<rest>+`, or
a valid IPv6 (not IPv4) address. -/
def bracketedHostOk (h : Chars) : Bool :=
  if h.take 1 = ['v'] then
    match h with
    | 'v' :: rest =>
      let hexRun := rest.takeWhile isHexDigitCh
      !hexRun.isEmpty &&
      (match rest.drop hexRun.length with
       | '.' :: tail => !tail.isEmpty
       | _ => false)
    | _ => false
  else if ipv4AddrOk h then false
  else ipv6AddrOk h

/-- Exceptions that matter to the decorator.  `userExc` stands for an
exception raised by the wrapped function (carrying its type name and message). -/
inductive PyExc where
  | typeError
  | valueError
  | assertionError
  | userExc (ty msg : Chars)
deriving DecidableEq, Repr

/-- Result of `urlsplit`. -/
structure SplitResult where
  scheme : Chars
  netloc : Chars
  path : Chars
  query : Chars
  fragment : Chars
deriving DecidableEq, Repr

/-- Result of `urlparse`. -/
structure UrlComponents where
  scheme : Chars
  netloc : Chars
  path : Chars
  params : Chars
  query : Chars
  fragment : Chars
deriving DecidableEq, Repr

/-- Model of `urllib.parse.urlsplit` (CPython 3.11, `allow_fragments=True`):
left-strip C0 controls and space, remove tab/CR/LF, extract the scheme,
extract the netloc after `//` (raising `ValueError` on mismatched brackets or
an invalid bracketed host), then split off fragment and query.  The NFKC
netloc check (`_checknetloc`) never fires on ASCII netlocs and is not
modelled. -/
def urlsplitE (url0 : Chars) : Except PyExc SplitResult :=
  let url1 := removeCtl (lstripC0 url0)
  let sr := schemeSplit url1
  let nr :=
    if sr.2.take 2 = ['/', '/'] then netlocSplit (sr.2.drop 2) else ([], sr.2)
  if bracketMismatch nr.1 then .error .valueError
  else if nr.1.contains '[' && nr.1.contains ']' && !bracketedHostOk (bracketContent nr.1) then
    .error .valueError
  else
    let fr :=
      match splitAtFirst (fun c => c == '#') nr.2 with
      | (a, some (_, b)) => (a, b)
      | (a, none) => (a, ([] : Chars))
    let qr :=
      match splitAtFirst (fun c => c == '?') fr.1 with
      | (a, some (_, b)) => (a, b)
      | (a, none) => (a, ([] : Chars))
    .ok ⟨sr.1, nr.1, qr.1, qr.2, fr.2⟩

/-- Python `uses_params`: schemes for which `urlparse` splits parameters. -/
def usesParamsSchemes : List Chars :=
  ["".data, "ftp".data, "hdl".data, "prospero".data, "http".data, "imap".data,
   "https".data, "shttp".data, "rtsp".data, "rtsps".data, "rtspu".data,
   "sip".data, "sips".data, "mms".data, "sftp".data, "tel".data]

/-- Suffix of `l` strictly after its last `/` (all of `l` when there is none). -/
def afterLastSlash (l : Chars) : Chars :=
  (l.reverse.takeWhile (fun c => !(c == '/'))).reverse

/-- Python `_splitparams`: split parameters at the first `;` occurring after
the last `/` (or anywhere when there is no `/`).  Only called when `;` occurs. -/
def splitParamsFn (l : Chars) : Chars × Chars :=
  if l.contains '/' then
    let b := afterLastSlash l
    match splitAtFirst (fun c => c == ';') b with
    | (b1, some (_, b2)) => (l.take (l.length - b.length) ++ b1, b2)
    | (_, none) => (l, [])
  else
    match splitAtFirst (fun c => c == ';') l with
    | (a, some (_, b)) => (a, b)
    | _ => (l, [])

/-- Parameter-splitting phase of `urlparse`: applies only when the scheme uses
parameters and the path contains a `;`. -/
def paramsPhase (scheme pathIn : Chars) : Chars × Chars :=
  if usesParamsSchemes.contains scheme ∧ pathIn.contains ';' then splitParamsFn pathIn
  else (pathIn, [])

/-- Model of `urllib.parse.urlparse`. -/
def urlparseE (url : Chars) : Except PyExc UrlComponents :=
  match urlsplitE url with
  | .error e => .error e
  | .ok s =>
    let pp := paramsPhase s.scheme s.path
    .ok ⟨s.scheme, s.netloc, pp.1, pp.2, s.query, s.fragment⟩

/-- Python `uses_netloc`: schemes for which `urlunsplit` inserts a `//`. -/
def usesNetlocSchemes : List Chars :=
  ["".data, "ftp".data, "http".data, "gopher".data, "nntp".data, "telnet".data,
   "imap".data, "wais".data, "file".data, "mms".data, "https".data,
   "shttp".data, "snews".data, "prospero".data, "rtsp".data, "rtsps".data,
   "rtspu".data, "rsync".data, "svn".data, "svn+ssh".data, "sftp".data,
   "nfs".data, "git".data, "git+ssh".data, "ws".data, "wss".data]

/-- Model of `urllib.parse.urlunsplit` (CPython 3.11). -/
def urlunsplit (scheme netloc path query fragment : Chars) : Chars :=
  let u1 :=
    if netloc ≠ [] ∨ (scheme ≠ [] ∧ usesNetlocSchemes.contains scheme ∧ path.take 2 ≠ ['/', '/']) then
      '/' :: '/' :: (netloc ++ (if path ≠ [] ∧ path.take 1 ≠ ['/'] then '/' :: path else path))
    else path
  let u2 := if scheme ≠ [] then scheme ++ ':' :: u1 else u1
  let u3 := if query ≠ [] then u2 ++ '?' :: query else u2
  if fragment ≠ [] then u3 ++ '#' :: fragment else u3

/-- Model of `urllib.parse.urlunparse`. -/
def urlunparse (c : UrlComponents) : Chars :=
  let p := if c.params ≠ [] then c.path ++ ';' :: c.params else c.path
  urlunsplit c.scheme c.netloc p c.query c.fragment

/-- Python `path.endswith("/")`. -/
def endsWithSlash (l : Chars) : Bool := l.getLast? == some '/'

/-- `HealthcheckConfig._build_url_with_path`: parse the base URL, append the
segment to the path with a `/` separator unless the path already ends in `/`,
and reassemble with `urlunparse`. -/
def buildUrlWithPath (url segment : Chars) : Except PyExc Chars :=
  match urlparseE url with
  | .error e => .error e
  | .ok r =>
    let sep : Chars := if endsWithSlash r.path then [] else ['/']
    .ok (urlunparse ⟨r.scheme, r.netloc, r.path ++ sep ++ segment, r.params, r.query, r.fragment⟩)

/-- Environment-variable map (`os.getenv`): `none` means the variable is unset. -/
abbrev Env := Chars → Option Chars

/-- Explicit constructor arguments of `HealthcheckConfig`: `none` models
Python `None` (absent). -/
structure HealthcheckConfig where
  url : Option Chars
  send_start : Option Bool
  send_diagnostics : Option Bool

/-- Python whitespace for `str.strip()` (ASCII portion). -/
def isPySpace (c : Char) : Bool :=
  c == ' ' || c == '\t' || c == '\n' || c == '\r' || c == '\x0b' || c == '\x0c'

/-- Python `str.strip()`. -/
def pyStrip (l : Chars) : Chars :=
  ((l.dropWhile isPySpace).reverse.dropWhile isPySpace).reverse

/-- Python `str.lower()` (ASCII case folding). -/
def pyLower (l : Chars) : Chars := l.map Char.toLower

/-- Python `envvar_value.strip().lower() in ("true", "1")`. -/
def envTrue (v : Chars) : Bool :=
  pyLower (pyStrip v) == "true".data || pyLower (pyStrip v) == "1".data

/-- Resolution of the `url` field by `HealthcheckConfig.__getattribute__`:
explicit value if not `None`, else `getenv("HEALTHCHECK_URL")` when set and
non-empty, else `None`. -/
def resolveUrl (cfg : HealthcheckConfig) (env : Env) : Option Chars :=
  match cfg.url with
  | some u => some u
  | none =>
    match env "HEALTHCHECK_URL".data with
    | some v => if v ≠ [] then some v else none
    | none => none

/-- Resolution of a boolean field by `HealthcheckConfig.__getattribute__`:
explicit value if not `None`, else the parsed environment variable when set
and non-empty, else `False`. -/
def resolveFlag (explicit : Option Bool) (varName : Chars) (env : Env) : Bool :=
  match explicit with
  | some b => b
  | none =>
    match env varName with
    | some v => if v ≠ [] then envTrue v else false
    | none => false

/-- Possible runtime values of the `url` attribute seen by
`HealthcheckConfig.__bool__` (the dataclass does not enforce its annotation,
so a non-string value is possible; only its truthiness matters). -/
inductive UrlVal where
  | absent
  | str (s : Chars)
  | nonString (truthy : Bool)
deriving DecidableEq

/-- Python truthiness of the url value. -/
def urlTruthy : UrlVal → Bool
  | .absent => false
  | .str s => !s.isEmpty
  | .nonString t => t

/-- The module constant `VALID_URL_SCHEMES = ("http", "https")`. -/
def validSchemes : List Chars := ["http".data, "https".data]

/-- `HealthcheckConfig.__bool__`: false when the url is falsy; otherwise parse
it (catching only `AttributeError`, which a truthy non-string triggers inside
`urlparse`; a `ValueError` from `urlparse` propagates) and require scheme in
`VALID_URL_SCHEMES` and a nonempty netloc. -/
def configBoolVal (u : UrlVal) : Except PyExc Bool :=
  if urlTruthy u = false then .ok false
  else
    match u with
    | .str s =>
      match urlparseE s with
      | .error e => .error e
      | .ok r =>
        if ¬ validSchemes.contains r.scheme then .ok false
        else if r.netloc = [] then .ok false
        else .ok true
    | _ => .ok false

/-- Validity of a resolved configuration (`if not config:` in `healthcheck`). -/
def configBoolE (cfg : HealthcheckConfig) (env : Env) : Except PyExc Bool :=
  configBoolVal (match resolveUrl cfg env with | none => .absent | some u => .str u)

/-- Items of a Python sequence passed to `urlencode`: a tuple of strings or a
plain string element. -/
inductive DiagItem where
  | tup (elems : List Chars)
  | strElem (s : Chars)
deriving DecidableEq, Repr

/-- Shapes of values returned by the wrapped function, as far as
`urlencode` distinguishes them: a mapping (something with `.items()`), a
sequence, a plain string, or a non-sized object such as a number. -/
inductive Diag where
  | mapping (pairs : List (Chars × Chars))
  | seq (items : List DiagItem)
  | strVal (s : Chars)
  | atom
deriving DecidableEq, Repr

/-- Upper-case hexadecimal digit. -/
def hexDigitUpper (n : Nat) : Char :=
  if n < 10 then Char.ofNat (48 + n) else Char.ofNat (55 + n)

/-- UTF-8 encoding of a code point, as byte values. -/
def utf8Bytes (c : Char) : List Nat :=
  let n := c.toNat
  if n < 128 then [n]
  else if n < 2048 then [192 + n / 64, 128 + n % 64]
  else if n < 65536 then [224 + n / 4096, 128 + (n / 64) % 64, 128 + n % 64]
  else [240 + n / 262144, 128 + (n / 4096) % 64, 128 + (n / 64) % 64, 128 + n % 64]

/-- Python `_ALWAYS_SAFE`: ASCII letters, digits, `_`, `.`, `-`, `~`. -/
def alwaysSafeChar (c : Char) : Bool :=
  c.isAlpha || c.isDigit || c == '_' || c == '.' || c == '-' || c == '~'

/-- Per-character behaviour of `urllib.parse.quote_plus` with empty `safe`. -/
def quotePlusChar (c : Char) : Chars :=
  if c == ' ' then ['+']
  else if alwaysSafeChar c then [c]
  else (utf8Bytes c).flatMap (fun b => ['%', hexDigitUpper (b / 16), hexDigitUpper (b % 16)])

/-- Python `quote_plus(s, safe='')` as used by `urlencode`. -/
def quotePlus (s : Chars) : Chars := s.flatMap quotePlusChar

/-- One `k=v` entry of `urlencode`'s output. -/
def encodePair (kv : Chars × Chars) : Chars := quotePlus kv.1 ++ '=' :: quotePlus kv.2

/-- Python `'&'.join`. -/
def joinAmp : List Chars → Chars
  | [] => []
  | [x] => x
  | x :: xs => x ++ '&' :: joinAmp xs

/-- Python tuple unpacking `k, v = item` inside `urlencode`'s loop: a 2-tuple
or a 2-character string succeeds, anything else raises `ValueError`. -/
def unpackItem : DiagItem → Except PyExc (Chars × Chars)
  | .tup [a, b] => .ok (a, b)
  | .tup _ => .error .valueError
  | .strElem [a, b] => .ok ([a], [b])
  | .strElem _ => .error .valueError

/-- Model of `urllib.parse.urlencode(query)` (default `doseq=False`):
mappings are encoded from their items; sequences are accepted when empty or
when their first element is a tuple (later items are unpacked, raising
`ValueError` for non-pairs); a nonempty string or a non-sized object raises
`TypeError`. -/
def urlencodeE : Diag → Except PyExc Chars
  | .mapping ps => .ok (joinAmp (ps.map encodePair))
  | .seq [] => .ok []
  | .seq (it :: rest) =>
    match it with
    | .strElem _ => .error .typeError
    | .tup _ =>
      match (it :: rest).mapM unpackItem with
      | .ok ps => .ok (joinAmp (ps.map encodePair))
      | .error e => .error e
  | .strVal [] => .ok []
  | .strVal (_ :: _) => .error .typeError
  | .atom => .error .typeError

/-- `_validate_diagnostics`: encode the value, catching only `TypeError`
(which yields no body); other exceptions propagate. -/
def validateDiagnostics (d : Diag) : Except PyExc (Option Chars) :=
  match urlencodeE d with
  | .ok s => .ok (some s)
  | .error .typeError => .ok none
  | .error e => .error e

/-- Network-level outcome of attempting one request: a non-error response, an
HTTP error status (4xx/5xx, turned into `HTTPError` by `urlopen`), or a
transport failure (connection error, timeout, DNS error — all `OSError`). -/
inductive NetOutcome where
  | goodResponse
  | httpStatusError
  | transportError
deriving DecidableEq, Repr

/-- Python `urllib.parse._splittype` (regex `([^/:]+):(.*)`), used by
`urllib.request.Request` to find the scheme; `None` when there is no
`scheme:` prefix. -/
def splitTypeFn (l : Chars) : Option (Chars × Chars) :=
  match splitAtFirst (fun c => c == '/' || c == ':') l with
  | (pre, some (c, rest)) =>
    if c == ':' && !pre.isEmpty then some (pyLower pre, rest) else none
  | _ => none

/-- Schemes the default `urlopen` opener has handlers for. -/
def knownSchemes : List Chars :=
  ["http".data, "https".data, "ftp".data, "file".data, "data".data]

/-- `_http_request`: `urlopen` raises `ValueError` when the endpoint has no
`scheme:` prefix at all (this propagates, nothing catches it); with a handled
scheme the request is attempted and any `OSError` — which includes transport
failures and the `HTTPError` raised for error statuses — is caught, giving
`False`; an unhandled scheme makes `urlopen` raise `URLError` (an `OSError`),
also giving `False`.  `True` is returned only for a non-error response. -/
def httpRequest (endpoint : Chars) (net : NetOutcome) (data : Option Chars) :
    Except PyExc Bool :=
  match splitTypeFn endpoint with
  | none => .error .valueError
  | some (sch, _) =>
    if knownSchemes.contains sch then
      match net with
      | .goodResponse => .ok true
      | .httpStatusError => .ok false
      | .transportError => .ok false
    else .ok false

/-- One HTTP request as issued by the decorator: target URL and optional body. -/
structure HttpReq where
  url : Chars
  body : Option Chars
deriving DecidableEq, Repr

/-- Network outcomes for the up-to-three requests one wrapped call can issue. -/
structure NetEnv where
  onStart : NetOutcome
  onMain : NetOutcome
  onFail : NetOutcome
deriving DecidableEq, Repr

/-- Trace of one `_http_request` call: the request is recorded when `urlopen`
was actually invoked on the network (i.e. the call did not raise before
sending); a raised exception is reported. -/
def pingTrace (endpoint : Chars) (net : NetOutcome) (data : Option Chars) :
    List HttpReq × Option PyExc :=
  match httpRequest endpoint net data with
  | .ok _ => ([⟨endpoint, data⟩], none)
  | .error e => ([], some e)

/-- Behaviour of the `except Exception` block: ping the fail URL, then
re-raise `e`; an exception raised while building or pinging the fail URL
replaces the in-flight one. -/
def failPath (u : Chars) (net : NetOutcome) (e : PyExc) :
    List HttpReq × Except PyExc Diag :=
  match buildUrlWithPath u "fail".data with
  | .error e2 => ([], .error e2)
  | .ok fu =>
    match pingTrace fu net none with
    | (rs, none) => (rs, .error e)
    | (rs, some e2) => (rs, .error e2)

/-- `healthcheck_wrapper`: assert the resolved url is present, ping the start
URL when `send_start`, run the wrapped function (its behaviour is the
`outcome` argument), then on success optionally encode diagnostics and ping
the base URL, returning the value; on any exception ping the fail URL and
re-raise.  Returns the list of requests issued and the call's outcome. -/
def healthcheckWrapper (cfg : HealthcheckConfig) (env : Env)
    (outcome : Except PyExc Diag) (net : NetEnv) :
    List HttpReq × Except PyExc Diag :=
  match resolveUrl cfg env with
  | none => ([], .error .assertionError)
  | some u =>
    let startStep : List HttpReq × Option PyExc :=
      if resolveFlag cfg.send_start "HEALTHCHECK_SEND_START".data env then
        match buildUrlWithPath u "start".data with
        | .error e => ([], some e)
        | .ok su => pingTrace su net.onStart none
      else ([], none)
    match startStep with
    | (rs, some e) => (rs, .error e)
    | (rs, none) =>
      match outcome with
      | .error e =>
        let fp := failPath u net.onFail e
        (rs ++ fp.1, fp.2)
      | .ok r =>
        let diagStep : Except PyExc (Option Chars) :=
          if resolveFlag cfg.send_diagnostics "HEALTHCHECK_SEND_DIAGNOSTICS".data env then
            validateDiagnostics r
          else .ok none
        match diagStep with
        | .error e =>
          let fp := failPath u net.onFail e
          (rs ++ fp.1, fp.2)
        | .ok d =>
          match pingTrace u net.onMain d with
          | (ms, none) => (rs ++ ms, .ok r)
          | (ms, some e) =>
            let fp := failPath u net.onFail e
            (rs ++ ms ++ fp.1, fp.2)

/-- Result of applying the decorator: either the target function returned
unchanged, or a wrapper closed over the constructed config. -/
inductive Decorated where
  | passthrough
  | wrapped (cfg : HealthcheckConfig)

/-- The `healthcheck` decorator with explicit keyword arguments: build the
config, return the target unchanged when it is invalid, else the wrapper.
Evaluating validity can itself raise (only a `ValueError` out of `urlparse`). -/
def healthcheckDecorate (url : Option Chars) (send_start send_diagnostics : Option Bool)
    (env : Env) : Except PyExc Decorated :=
  let cfg : HealthcheckConfig := ⟨url, send_start, send_diagnostics⟩
  match configBoolE cfg env with
  | .error e => .error e
  | .ok false => .ok .passthrough
  | .ok true => .ok (.wrapped cfg)

/-- Calling the decorated function: the passthrough runs the target as-is and
issues no request; the wrapper runs `healthcheck_wrapper`. -/
def callDecorated (d : Decorated) (env : Env) (outcome : Except PyExc Diag)
    (net : NetEnv) : List HttpReq × Except PyExc Diag :=
  match d with
  | .passthrough => ([], outcome)
  | .wrapped cfg => healthcheckWrapper cfg env outcome net

/-- Spec-worded predicate, for comparison with the code's `envTrue`: the value
"case-insensitively equals `true` or `1`" (no whitespace stripping). -/
def specCaseInsensitiveTruthy (v : Chars) : Bool :=
  pyLower v == "true".data || pyLower v == "1".data

/-- Environment with every variable unset. -/
def emptyEnv : Env := fun _ => none

/-- Environment binding exactly one variable. -/
def envWith (name v : Chars) : Env := fun n => if n = name then some v else none

/-- Decidable equality for `Except`, used to evaluate the model on concrete
inputs. -/
instance exceptDecEq {ε α : Type} [DecidableEq ε] [DecidableEq α] :
    DecidableEq (Except ε α) := fun a b =>
  match a, b with
  | .ok x, .ok y =>
    if h : x = y then .isTrue (by rw [h]) else .isFalse (by intro hh; cases hh; exact h rfl)
  | .error x, .error y =>
    if h : x = y then .isTrue (by rw [h]) else .isFalse (by intro hh; cases hh; exact h rfl)
  | .ok _, .error _ => .isFalse (fun h => Except.noConfusion h)
  | .error _, .ok _ => .isFalse (fun h => Except.noConfusion h)

end HCD

namespace HCD

/-! Helper lemmas about the generic splitting functions. -/

theorem saf_nil (p : Char → Bool) : splitAtFirst p [] = ([], none) := rfl

theorem saf_cons_pos {p : Char → Bool} {c : Char} {l : Chars} (h : p c = true) :
    splitAtFirst p (c :: l) = ([], some (c, l)) := by
  simp [splitAtFirst, h]

theorem saf_cons_neg {p : Char → Bool} {c : Char} {l : Chars} (h : p c = false) :
    splitAtFirst p (c :: l) = (c :: (splitAtFirst p l).1, (splitAtFirst p l).2) := by
  simp [splitAtFirst, h]

theorem saf_none {p : Char → Bool} {l : Chars} (h : ∀ c ∈ l, p c = false) :
    splitAtFirst p l = (l, none) := by
  induction l with
  | nil => rfl
  | cons c cs ih =>
    rw [saf_cons_neg (h c (by simp)), ih (fun x hx => h x (by simp [hx]))]

theorem saf_append {p : Char → Bool} {a : Chars} (b : Chars) (h : ∀ c ∈ a, p c = false) :
    splitAtFirst p (a ++ b) = (a ++ (splitAtFirst p b).1, (splitAtFirst p b).2) := by
  induction a with
  | nil => simp
  | cons c cs ih =>
    rw [List.cons_append, saf_cons_neg (h c (by simp)), ih (fun x hx => h x (by simp [hx]))]
    simp

theorem saf_found {p : Char → Bool} {a : Chars} {c : Char} (b : Chars)
    (h : ∀ x ∈ a, p x = false) (hc : p c = true) :
    splitAtFirst p (a ++ c :: b) = (a, some (c, b)) := by
  rw [saf_append _ h, saf_cons_pos hc]
  simp

theorem saf_fst_false {p : Char → Bool} {l : Chars} :
    ∀ x ∈ (splitAtFirst p l).1, p x = false := by
  induction l with
  | nil => simp [splitAtFirst]
  | cons c cs ih =>
    by_cases hc : p c = true
    · rw [saf_cons_pos hc]; simp
    · rw [saf_cons_neg (by simpa using hc)]
      intro x hx
      rcases List.mem_cons.mp hx with h | h
      · subst h; simpa using hc
      · exact ih x h

theorem saf_decomp {p : Char → Bool} {l a : Chars} {c : Char} {b : Chars}
    (h : splitAtFirst p l = (a, some (c, b))) : l = a ++ c :: b ∧ p c = true := by
  induction l generalizing a with
  | nil => simp [splitAtFirst] at h
  | cons x xs ih =>
    by_cases hx : p x = true
    · rw [saf_cons_pos hx] at h
      rw [Prod.ext_iff] at h
      simp at h
      obtain ⟨ha, hc', hb⟩ := h
      subst ha; subst hc'; subst hb
      exact ⟨rfl, hx⟩
    · rw [saf_cons_neg (by simpa using hx)] at h
      rw [Prod.ext_iff] at h
      simp at h
      obtain ⟨h1, h2⟩ := h
      have hx2 : splitAtFirst p xs = ((splitAtFirst p xs).1, some (c, b)) := by
        rw [← h2]
      obtain ⟨hl, hpc⟩ := ih hx2
      subst h1
      refine ⟨?_, hpc⟩
      rw [List.cons_append, ← hl]

end HCD

namespace HCD

/-! Small facts used by several claims. -/

theorem urlparse_nil : urlparseE [] = .ok ⟨[], [], [], [], [], []⟩ := rfl

theorem validSchemes_contains (s : Chars) :
    validSchemes.contains s = true ↔ s = "http".data ∨ s = "https".data := by
  constructor
  · intro h
    rcases List.contains_iff_exists_mem_beq.mp h with ⟨x, hx, hbeq⟩
    have hsx : s = x := by
      exact beq_iff_eq.mp hbeq
    simp [validSchemes] at hx
    rcases hx with h1 | h1 <;> [left; right] <;> rw [hsx, h1]
  · intro h
    rcases h with h | h <;> subst h <;> decide

/-- C4: for each configuration field independently, the resolved value is the
explicit value when present; otherwise the (parsed) environment variable when
set and non-empty; otherwise the default (`None` for url, `False` for the
booleans). -/
theorem C4_resolution_precedence (cfg : HealthcheckConfig) (env : Env) :
    (∀ u, cfg.url = some u → resolveUrl cfg env = some u) ∧
    (cfg.url = none → ∀ v, env "HEALTHCHECK_URL".data = some v → v ≠ [] →
      resolveUrl cfg env = some v) ∧
    (cfg.url = none →
      (env "HEALTHCHECK_URL".data = none ∨ env "HEALTHCHECK_URL".data = some []) →
      resolveUrl cfg env = none) ∧
    (∀ b, cfg.send_start = some b →
      resolveFlag cfg.send_start "HEALTHCHECK_SEND_START".data env = b) ∧
    (cfg.send_start = none → ∀ v, env "HEALTHCHECK_SEND_START".data = some v → v ≠ [] →
      resolveFlag cfg.send_start "HEALTHCHECK_SEND_START".data env = envTrue v) ∧
    (cfg.send_start = none →
      (env "HEALTHCHECK_SEND_START".data = none ∨
        env "HEALTHCHECK_SEND_START".data = some []) →
      resolveFlag cfg.send_start "HEALTHCHECK_SEND_START".data env = false) ∧
    (∀ b, cfg.send_diagnostics = some b →
      resolveFlag cfg.send_diagnostics "HEALTHCHECK_SEND_DIAGNOSTICS".data env = b) ∧
    (cfg.send_diagnostics = none →
      ∀ v, env "HEALTHCHECK_SEND_DIAGNOSTICS".data = some v → v ≠ [] →
      resolveFlag cfg.send_diagnostics "HEALTHCHECK_SEND_DIAGNOSTICS".data env = envTrue v) ∧
    (cfg.send_diagnostics = none →
      (env "HEALTHCHECK_SEND_DIAGNOSTICS".data = none ∨
        env "HEALTHCHECK_SEND_DIAGNOSTICS".data = some []) →
      resolveFlag cfg.send_diagnostics "HEALTHCHECK_SEND_DIAGNOSTICS".data env = false) := by
  refine ⟨?_, ?_, ?_, ?_, ?_, ?_, ?_, ?_, ?_⟩
  · intro u hu; simp [resolveUrl, hu]
  · intro h0 v hv hne; simp [resolveUrl, h0, hv, hne]
  · intro h0 hcase; rcases hcase with h | h <;> simp [resolveUrl, h0, h]
  · intro b hb; simp [resolveFlag, hb]
  · intro h0 v hv hne; simp [resolveFlag, h0, hv, hne]
  · intro h0 hcase; rcases hcase with h | h <;> simp [resolveFlag, h0, h]
  · intro b hb; simp [resolveFlag, hb]
  · intro h0 v hv hne; simp [resolveFlag, h0, hv, hne]
  · intro h0 hcase; rcases hcase with h | h <;> simp [resolveFlag, h0, h]

/-- C4 witness: the theorem applied to a concrete configuration and
environment. -/
theorem C4_resolution_precedence_witness :
    resolveUrl ⟨none, none, none⟩ (envWith "HEALTHCHECK_URL".data "https://h/u".data) =
      some "https://h/u".data :=
  (C4_resolution_precedence ⟨none, none, none⟩
      (envWith "HEALTHCHECK_URL".data "https://h/u".data)).2.1 rfl
    "https://h/u".data (by decide) (by decide)

/-- C8 counterexample: the value " true" (leading space) makes the resolved
boolean true, although it does not case-insensitively equal "true" or "1" —
the code strips whitespace first, which the claim's iff forbids. -/
theorem C8_counterexample :
    resolveFlag none "HEALTHCHECK_SEND_START".data
      (envWith "HEALTHCHECK_SEND_START".data " true".data) = true ∧
    specCaseInsensitiveTruthy " true".data = false := by
  constructor <;> decide

/-- C8 amended: for a set variable the resolved boolean is true iff the value
is non-empty and, after stripping leading and trailing whitespace and
lower-casing, equals "true" or "1"; an unset variable resolves to false. -/
theorem C8_env_bool_parsing (name v : Chars) (env : Env) :
    (env name = some v →
      (resolveFlag none name env = true ↔
        v ≠ [] ∧ (pyLower (pyStrip v) = "true".data ∨ pyLower (pyStrip v) = "1".data))) ∧
    (env name = none → resolveFlag none name env = false) := by
  constructor
  · intro hv
    simp only [resolveFlag, hv]
    by_cases hne : v = []
    · subst hne; simp
    · simp only [hne, if_pos (by exact hne)]
      constructor
      · intro h
        refine ⟨hne, ?_⟩
        have h2 := h
        simp [envTrue] at h2
        rcases h2 with h2 | h2 <;> [left; right] <;> exact h2
      · intro ⟨_, h⟩
        simp [envTrue]
        rcases h with h | h <;> [left; right] <;> exact h
  · intro h0; simp [resolveFlag, h0]

/-- C8 witness: "TRue" parses to true (and "1" to true, "false" to false). -/
theorem C8_env_bool_parsing_witness :
    resolveFlag none "HEALTHCHECK_SEND_START".data
      (envWith "HEALTHCHECK_SEND_START".data "TRue".data) = true ∧
    resolveFlag none "HEALTHCHECK_SEND_DIAGNOSTICS".data
      (envWith "HEALTHCHECK_SEND_DIAGNOSTICS".data "1".data) = true ∧
    resolveFlag none "HEALTHCHECK_SEND_START".data
      (envWith "HEALTHCHECK_SEND_START".data "false".data) = false := by
  refine ⟨?_, ?_, ?_⟩
  · exact ((C8_env_bool_parsing "HEALTHCHECK_SEND_START".data "TRue".data
      (envWith "HEALTHCHECK_SEND_START".data "TRue".data)).1 (by decide)).mpr (by decide)
  · decide
  · decide

/-- C10: an explicitly supplied empty url is an explicit value, not absent:
even when the environment variable holds a URL, the resolved url is the empty
string, the configuration is invalid, and decoration returns the target
unchanged, issuing no request. -/
theorem C10_explicit_empty_url (ss sd : Option Bool) (env : Env) (v : Chars)
    (hv : env "HEALTHCHECK_URL".data = some v) :
    resolveUrl ⟨some [], ss, sd⟩ env = some [] ∧
    configBoolE ⟨some [], ss, sd⟩ env = .ok false ∧
    healthcheckDecorate (some []) ss sd env = .ok .passthrough ∧
    (∀ outcome net, callDecorated .passthrough env outcome net = ([], outcome)) := by
  refine ⟨rfl, rfl, ?_, fun outcome net => rfl⟩
  have hb : configBoolE ⟨some [], ss, sd⟩ env = .ok false := rfl
  simp [healthcheckDecorate, hb]

/-- C10 witness at a concrete environment holding a valid URL. -/
theorem C10_explicit_empty_url_witness :
    healthcheckDecorate (some []) none none
      (envWith "HEALTHCHECK_URL".data "https://h/u".data) = .ok .passthrough :=
  (C10_explicit_empty_url none none
      (envWith "HEALTHCHECK_URL".data "https://h/u".data) "https://h/u".data rfl).2.2.1

/-- C2: when the resolved configuration is invalid, the decorator returns the
target function unchanged — calling it yields exactly the target's own
outcome and issues no HTTP request at all. -/
theorem C2_invalid_config_passthrough (url : Option Chars) (ss sd : Option Bool) (env : Env)
    (h : configBoolE ⟨url, ss, sd⟩ env = .ok false) :
    healthcheckDecorate url ss sd env = .ok .passthrough ∧
    (∀ outcome net, callDecorated .passthrough env outcome net = ([], outcome)) := by
  refine ⟨?_, fun outcome net => rfl⟩
  simp [healthcheckDecorate, h]

/-- C2 witness: url absent with no environment variable set is invalid, and
the passthrough re-raises the target's exception untouched with no request. -/
theorem C2_invalid_config_passthrough_witness :
    healthcheckDecorate none none none emptyEnv = .ok .passthrough ∧
    callDecorated .passthrough emptyEnv
      (.error (.userExc "Exception".data "boom".data))
      ⟨.goodResponse, .goodResponse, .goodResponse⟩ =
      ([], .error (.userExc "Exception".data "boom".data)) := by
  have h := C2_invalid_config_passthrough none none none emptyEnv (by decide)
  exact ⟨h.1, h.2 _ _⟩

end HCD

namespace HCD

/-- C9 counterexample: an `ftp://` endpoint does not start with an http/https
scheme, yet the primitive raises nothing — the default opener has an FTP
handler, so the request is attempted and the call returns a boolean. -/
theorem C9_counterexample :
    httpRequest "ftp://h/p".data NetOutcome.goodResponse none = .ok true ∧
    ∀ e : PyExc, httpRequest "ftp://h/p".data NetOutcome.goodResponse none ≠ .error e := by
  have h : httpRequest "ftp://h/p".data NetOutcome.goodResponse none = .ok true := by decide
  refine ⟨h, ?_⟩
  intro e he
  rw [h] at he
  exact Except.noConfusion he

/-- C9 amended: the primitive returns true only for a request that got a
non-error response; with an http/https endpoint any `OSError`-class failure —
transport errors, and also the `HTTPError` that `urlopen` raises for error
statuses — yields false; it raises (`ValueError`) exactly for endpoints with
no `scheme:` prefix at all, while every endpoint with some scheme prefix
returns a boolean (handled non-http schemes are attempted, unknown ones give
`URLError`, an `OSError`, hence false). -/
theorem C9_http_request (endpoint : Chars) (net : NetOutcome) (data : Option Chars)
    (sch rest : Chars) :
    (httpRequest endpoint net data = .ok true → net = .goodResponse) ∧
    (splitTypeFn endpoint = some (sch, rest) →
      (sch = "http".data ∨ sch = "https".data) →
      httpRequest endpoint .transportError data = .ok false ∧
      httpRequest endpoint .httpStatusError data = .ok false ∧
      httpRequest endpoint .goodResponse data = .ok true) ∧
    (splitTypeFn endpoint = none → httpRequest endpoint net data = .error .valueError) ∧
    (splitTypeFn endpoint = some (sch, rest) → ∃ b, httpRequest endpoint net data = .ok b) := by
  refine ⟨?_, ?_, ?_, ?_⟩
  · intro h
    rcases hs : splitTypeFn endpoint with _ | ⟨s0, r0⟩
    · simp [httpRequest, hs] at h
    · by_cases hk : s0 ∈ knownSchemes
      · cases net with
        | goodResponse => rfl
        | httpStatusError => simp [httpRequest, hs, hk] at h
        | transportError => simp [httpRequest, hs, hk] at h
      · simp [httpRequest, hs, hk] at h
  · intro hs hsch
    have hk : sch ∈ knownSchemes := by
      rcases hsch with h | h <;> subst h <;> decide
    exact ⟨by simp [httpRequest, hs, hk], by simp [httpRequest, hs, hk],
      by simp [httpRequest, hs, hk]⟩
  · intro hs; simp [httpRequest, hs]
  · intro hs
    by_cases hk : sch ∈ knownSchemes
    · cases net <;> simp [httpRequest, hs, hk]
    · exact ⟨false, by simp [httpRequest, hs, hk]⟩

/-- C9 witness: the amended behaviour at a concrete http endpoint. -/
theorem C9_http_request_witness :
    httpRequest "http://h/p".data NetOutcome.transportError none = .ok false ∧
    httpRequest "nope".data NetOutcome.goodResponse none = .error .valueError := by
  have h := C9_http_request "http://h/p".data NetOutcome.transportError none
    "http".data "//h/p".data
  have h2 := C9_http_request "nope".data NetOutcome.goodResponse none "".data "".data
  exact ⟨(h.2.1 (by decide) (Or.inl rfl)).1, h2.2.2.1 (by decide)⟩

/-- C5 counterexample: `__bool__` catches only `AttributeError`, but
`urlparse("ftp://[")` raises `ValueError` (mismatched bracket), which
propagates out of the validity check instead of returning false. -/
theorem C5_counterexample :
    configBoolVal (UrlVal.str "ftp://[".data) = .error .valueError := by decide

/-- C5 amended: the validity check returns true for every url that parses
with scheme http/https and a non-empty host, and returns false without
throwing when the url is absent, empty, a non-string, or parses successfully
with another scheme or an empty host; however for a url on which `urlparse`
itself raises `ValueError` (square-bracket authority problems), the check
propagates that exception. -/
theorem C5_validity_check (s : Chars) (r : UrlComponents) :
    configBoolVal .absent = .ok false ∧
    configBoolVal (.str []) = .ok false ∧
    (∀ t, configBoolVal (.nonString t) = .ok false) ∧
    (urlparseE s = .ok r → (r.scheme = "http".data ∨ r.scheme = "https".data) →
      r.netloc ≠ [] → configBoolVal (.str s) = .ok true) ∧
    (urlparseE s = .ok r → ¬(r.scheme = "http".data ∨ r.scheme = "https".data) →
      configBoolVal (.str s) = .ok false) ∧
    (urlparseE s = .ok r → r.netloc = [] → configBoolVal (.str s) = .ok false) ∧
    (∀ e, urlparseE s = .error e → s ≠ [] → configBoolVal (.str s) = .error e) := by
  refine ⟨rfl, rfl, ?_, ?_, ?_, ?_, ?_⟩
  · intro t; cases t <;> rfl
  · intro hp hs hn
    have hsne : s ≠ [] := by
      intro h0
      subst h0
      rw [urlparse_nil] at hp
      have h2 := Except.ok.inj hp
      apply hn
      rw [← h2]
    have ht : urlTruthy (.str s) = true := by simp [urlTruthy, hsne]
    have hmem : r.scheme ∈ validSchemes := by
      rcases hs with h | h <;> rw [h] <;> decide
    simp [configBoolVal, ht, hp, hmem, hn]
  · intro hp hs
    by_cases hsne : s = []
    · subst hsne; rfl
    · have ht : urlTruthy (.str s) = true := by simp [urlTruthy, hsne]
      have hmem : r.scheme ∉ validSchemes := by
        intro hm
        apply hs
        simpa [validSchemes] using hm
      simp [configBoolVal, ht, hp, hmem]
  · intro hp hn
    by_cases hsne : s = []
    · subst hsne; rfl
    · have ht : urlTruthy (.str s) = true := by simp [urlTruthy, hsne]
      by_cases hc : r.scheme ∈ validSchemes
      · simp [configBoolVal, ht, hp, hc, hn]
      · simp [configBoolVal, ht, hp, hc]
  · intro e hp hsne
    have ht : urlTruthy (.str s) = true := by simp [urlTruthy, hsne]
    simp [configBoolVal, ht, hp]

/-- C5 witness: the amended behaviour at concrete urls of each class. -/
theorem C5_validity_check_witness :
    configBoolVal (.str "https://h/u".data) = .ok true ∧
    configBoolVal (.str "ftp://h/u".data) = .ok false ∧
    configBoolVal (.str "https://".data) = .ok false := by
  refine ⟨?_, ?_, ?_⟩
  · exact (C5_validity_check "https://h/u".data
      ⟨"https".data, "h".data, "/u".data, [], [], []⟩).2.2.2.1 (by decide) (by decide)
      (by decide)
  · exact (C5_validity_check "ftp://h/u".data
      ⟨"ftp".data, "h".data, "/u".data, [], [], []⟩).2.2.2.2.1 (by decide) (by decide)
  · exact (C5_validity_check "https://".data
      ⟨"https".data, [], [], [], [], []⟩).2.2.2.2.2.1 (by decide) rfl

end HCD

namespace HCD

/-! takeWhile / dropWhile helpers. -/

theorem tw_append_all {p : Char → Bool} {a : Chars} (b : Chars)
    (h : ∀ c ∈ a, p c = true) : (a ++ b).takeWhile p = a ++ b.takeWhile p := by
  induction a with
  | nil => simp
  | cons c cs ih =>
    rw [List.cons_append, List.takeWhile_cons, if_pos (h c (by simp)),
      ih (fun x hx => h x (by simp [hx]))]
    rfl

theorem dw_append_all {p : Char → Bool} {a : Chars} (b : Chars)
    (h : ∀ c ∈ a, p c = true) : (a ++ b).dropWhile p = b.dropWhile p := by
  induction a with
  | nil => simp
  | cons c cs ih =>
    rw [List.cons_append, List.dropWhile_cons, if_pos (h c (by simp))]
    exact ih (fun x hx => h x (by simp [hx]))

theorem tw_cons_false {p : Char → Bool} {c : Char} (l : Chars) (h : p c = false) :
    (c :: l).takeWhile p = [] := by
  rw [List.takeWhile_cons, if_neg (by simp [h])]

theorem dw_cons_false {p : Char → Bool} {c : Char} (l : Chars) (h : p c = false) :
    (c :: l).dropWhile p = c :: l := by
  rw [List.dropWhile_cons, if_neg (by simp [h])]

theorem dw_append_cons {p : Char → Bool} {c : Char} (a b : Chars) (h : p c = false) :
    (a ++ c :: b).dropWhile p = a.dropWhile p ++ c :: b := by
  induction a with
  | nil => simp [dw_cons_false _ h]
  | cons x xs ih =>
    by_cases hx : p x = true
    · rw [List.cons_append, List.dropWhile_cons, if_pos hx, List.dropWhile_cons, if_pos hx]
      exact ih
    · rw [List.cons_append, List.dropWhile_cons, if_neg (by simp [hx]),
        List.dropWhile_cons, if_neg (by simp [hx])]
      simp

theorem mem_dropWhile_imp {p : Char → Bool} {l : Chars} {x : Char}
    (h : x ∈ l.dropWhile p) : x ∈ l := by
  induction l with
  | nil => simp at h
  | cons c cs ih =>
    rw [List.dropWhile_cons] at h
    by_cases hc : p c = true
    · rw [if_pos hc] at h
      exact List.mem_cons_of_mem _ (ih h)
    · rw [if_neg (by simp [hc])] at h
      exact h

theorem mem_takeWhile_mem {p : Char → Bool} {l : Chars} {x : Char}
    (h : x ∈ l.takeWhile p) : x ∈ l := by
  induction l with
  | nil => simp at h
  | cons c cs ih =>
    rw [List.takeWhile_cons] at h
    by_cases hc : p c = true
    · rw [if_pos hc] at h
      rcases List.mem_cons.mp h with h | h
      · simp [h]
      · exact List.mem_cons_of_mem _ (ih h)
    · rw [if_neg (by simp [hc])] at h
      simp at h

/-- Destructured form of a successful `urlsplitE`. -/
theorem urlsplitE_ok_destruct {u : Chars} {s : SplitResult} (h : urlsplitE u = .ok s) :
    ∃ rest rest2 body,
      schemeSplit (removeCtl (lstripC0 u)) = (s.scheme, rest) ∧
      ((rest.take 2 = ['/', '/'] ∧ netlocSplit (rest.drop 2) = (s.netloc, rest2)) ∨
        (¬rest.take 2 = ['/', '/'] ∧ s.netloc = [] ∧ rest2 = rest)) ∧
      bracketMismatch s.netloc = false ∧
      (s.netloc.contains '[' && s.netloc.contains ']' &&
        !bracketedHostOk (bracketContent s.netloc)) = false ∧
      ((∃ c, splitAtFirst (fun c => c == '#') rest2 = (body, some (c, s.fragment))) ∨
        (splitAtFirst (fun c => c == '#') rest2 = (body, none) ∧ s.fragment = [])) ∧
      ((∃ c, splitAtFirst (fun c => c == '?') body = (s.path, some (c, s.query))) ∨
        (splitAtFirst (fun c => c == '?') body = (s.path, none) ∧ s.query = [])) := by
  simp only [urlsplitE] at h
  rcases hsr : schemeSplit (removeCtl (lstripC0 u)) with ⟨sch, rest⟩
  rw [hsr] at h
  by_cases hsl : rest.take 2 = ['/', '/']
  · rw [if_pos hsl] at h
    rcases hnr : netlocSplit (rest.drop 2) with ⟨nl, rest2⟩
    rw [hnr] at h
    by_cases hbm : bracketMismatch nl = true
    · rw [if_pos hbm] at h
      exact absurd h (by simp)
    · rw [if_neg hbm] at h
      by_cases hbh : (nl.contains '[' && nl.contains ']' &&
          !bracketedHostOk (bracketContent nl)) = true
      · rw [if_pos hbh] at h
        exact absurd h (by simp)
      · rw [if_neg hbh] at h
        rcases hfr : splitAtFirst (fun c => c == '#') rest2 with ⟨body, frag?⟩
        rcases hqrsplit : frag? with _ | ⟨fc, frag⟩
        · subst hqrsplit
          rw [hfr] at h
          rcases hqr : splitAtFirst (fun c => c == '?') body with ⟨pth, q?⟩
          rcases hq2 : q? with _ | ⟨qc, qq⟩
          · subst hq2
            rw [hqr] at h
            simp only [Except.ok.injEq] at h
            subst h
            exact ⟨rest, rest2, body, rfl, Or.inl ⟨hsl, hnr⟩, by simpa using hbm,
              by simpa using hbh, Or.inr ⟨hfr, rfl⟩, Or.inr ⟨hqr, rfl⟩⟩
          · subst hq2
            rw [hqr] at h
            simp only [Except.ok.injEq] at h
            subst h
            exact ⟨rest, rest2, body, rfl, Or.inl ⟨hsl, hnr⟩, by simpa using hbm,
              by simpa using hbh, Or.inr ⟨hfr, rfl⟩, Or.inl ⟨qc, hqr⟩⟩
        · subst hqrsplit
          rw [hfr] at h
          rcases hqr : splitAtFirst (fun c => c == '?') body with ⟨pth, q?⟩
          rcases hq2 : q? with _ | ⟨qc, qq⟩
          · subst hq2
            rw [hqr] at h
            simp only [Except.ok.injEq] at h
            subst h
            exact ⟨rest, rest2, body, rfl, Or.inl ⟨hsl, hnr⟩, by simpa using hbm,
              by simpa using hbh, Or.inl ⟨fc, hfr⟩, Or.inr ⟨hqr, rfl⟩⟩
          · subst hq2
            rw [hqr] at h
            simp only [Except.ok.injEq] at h
            subst h
            exact ⟨rest, rest2, body, rfl, Or.inl ⟨hsl, hnr⟩, by simpa using hbm,
              by simpa using hbh, Or.inl ⟨fc, hfr⟩, Or.inl ⟨qc, hqr⟩⟩
  · rw [if_neg hsl] at h
    by_cases hbm : bracketMismatch [] = true
    · rw [if_pos hbm] at h
      exact absurd h (by simp)
    · rw [if_neg hbm] at h
      by_cases hbh : (List.contains [] '[' && List.contains [] ']' &&
          !bracketedHostOk (bracketContent [])) = true
      · rw [if_pos hbh] at h
        exact absurd h (by simp)
      · rw [if_neg hbh] at h
        rcases hfr : splitAtFirst (fun c => c == '#') rest with ⟨body, frag?⟩
        rcases hqrsplit : frag? with _ | ⟨fc, frag⟩
        · subst hqrsplit
          rw [hfr] at h
          rcases hqr : splitAtFirst (fun c => c == '?') body with ⟨pth, q?⟩
          rcases hq2 : q? with _ | ⟨qc, qq⟩
          · subst hq2
            rw [hqr] at h
            simp only [Except.ok.injEq] at h
            subst h
            exact ⟨rest, rest, body, rfl, Or.inr ⟨hsl, rfl, rfl⟩, by simpa using hbm,
              by simpa using hbh, Or.inr ⟨hfr, rfl⟩, Or.inr ⟨hqr, rfl⟩⟩
          · subst hq2
            rw [hqr] at h
            simp only [Except.ok.injEq] at h
            subst h
            exact ⟨rest, rest, body, rfl, Or.inr ⟨hsl, rfl, rfl⟩, by simpa using hbm,
              by simpa using hbh, Or.inr ⟨hfr, rfl⟩, Or.inl ⟨qc, hqr⟩⟩
        · subst hqrsplit
          rw [hfr] at h
          rcases hqr : splitAtFirst (fun c => c == '?') body with ⟨pth, q?⟩
          rcases hq2 : q? with _ | ⟨qc, qq⟩
          · subst hq2
            rw [hqr] at h
            simp only [Except.ok.injEq] at h
            subst h
            exact ⟨rest, rest, body, rfl, Or.inr ⟨hsl, rfl, rfl⟩, by simpa using hbm,
              by simpa using hbh, Or.inl ⟨fc, hfr⟩, Or.inr ⟨hqr, rfl⟩⟩
          · subst hq2
            rw [hqr] at h
            simp only [Except.ok.injEq] at h
            subst h
            exact ⟨rest, rest, body, rfl, Or.inr ⟨hsl, rfl, rfl⟩, by simpa using hbm,
              by simpa using hbh, Or.inl ⟨fc, hfr⟩, Or.inl ⟨qc, hqr⟩⟩

end HCD

namespace HCD

/-! Facts about afterLastSlash and other path helpers. -/

theorem afterLastSlash_mem {l : Chars} {c : Char} (h : c ∈ afterLastSlash l) : c ∈ l := by
  unfold afterLastSlash at h
  rw [List.mem_reverse] at h
  have := mem_takeWhile_mem h
  rwa [List.mem_reverse] at this

theorem afterLastSlash_no_slash {l : Chars} :
    ∀ c ∈ afterLastSlash l, (c == '/') = false := by
  intro c h
  unfold afterLastSlash at h
  rw [List.mem_reverse] at h
  have := List.mem_takeWhile_imp h
  simpa using this

theorem afterLastSlash_suffix (l : Chars) : ∃ a, l = a ++ afterLastSlash l := by
  refine ⟨(l.reverse.dropWhile (fun c => !(c == '/'))).reverse, ?_⟩
  unfold afterLastSlash
  rw [← List.reverse_append, List.takeWhile_append_dropWhile, List.reverse_reverse]

theorem afterLastSlash_slash_decomp {l : Chars} (h : l.contains '/' = true) :
    ∃ a, l = a ++ '/' :: afterLastSlash l := by
  rcases hd : l.reverse.dropWhile (fun c => !(c == '/')) with _ | ⟨c, rest⟩
  · exfalso
    have hall : ∀ x ∈ l.reverse, (!(x == '/')) = true := List.dropWhile_eq_nil_iff.mp hd
    have hmem : '/' ∈ l := by
      rcases List.contains_iff_exists_mem_beq.mp h with ⟨x, hx, hbeq⟩
      have hx2 : ('/' : Char) = x := beq_iff_eq.mp hbeq
      rwa [hx2]
    have := hall '/' (List.mem_reverse.mpr hmem)
    simp at this
  · have h2 : (l.reverse.dropWhile (fun c => !(c == '/'))).head? = some c := by
      rw [hd]; rfl
    have h3 := List.head?_dropWhile_not (fun c => !(c == '/')) l.reverse
    rw [h2] at h3
    simp at h3
    subst h3
    refine ⟨rest.reverse, ?_⟩
    have hsplit : l.reverse = l.reverse.takeWhile (fun c => !(c == '/')) ++
        ('/' :: rest) := by
      rw [← hd, List.takeWhile_append_dropWhile]
    have hrev := congrArg List.reverse hsplit
    rw [List.reverse_reverse, List.reverse_append] at hrev
    conv_lhs => rw [hrev]
    unfold afterLastSlash
    simp

theorem afterLastSlash_append_nosl {a x : Chars} (hx : ∀ c ∈ x, (c == '/') = false) :
    afterLastSlash (a ++ x) = afterLastSlash a ++ x := by
  unfold afterLastSlash
  rw [List.reverse_append, tw_append_all _ (by
    intro c hc
    rw [List.mem_reverse] at hc
    simp [hx c hc])]
  rw [List.reverse_append, List.reverse_reverse]

theorem afterLastSlash_sentinel {a seg : Chars} (hseg : ∀ c ∈ seg, (c == '/') = false) :
    afterLastSlash ((a ++ ['/']) ++ seg) = seg := by
  rw [afterLastSlash_append_nosl hseg]
  have h0 : afterLastSlash (a ++ ['/']) = [] := by
    unfold afterLastSlash
    rw [List.reverse_append]
    simp [List.takeWhile_cons]
  rw [h0]
  rfl

theorem head?_dropWhile_false {p : Char → Bool} {l : Chars} {c : Char}
    (h : (l.dropWhile p).head? = some c) : p c = false := by
  have h3 := List.head?_dropWhile_not p l
  rw [h] at h3
  simpa using h3

theorem saf_fst_head {p : Char → Bool} (l : Chars) :
    (splitAtFirst p l).1 = [] ∨ (splitAtFirst p l).1.head? = l.head? := by
  cases l with
  | nil => left; rfl
  | cons c cs =>
    by_cases hc : p c = true
    · left; rw [saf_cons_pos hc]
    · right
      rw [saf_cons_neg (by simpa using hc)]
      rfl

theorem schemeSplit_cases (l : Chars) :
    schemeSplit l = ([], l) ∨
      ∃ pre ch rest, splitAtFirst (fun c => c == ':') l = (pre, some (ch, rest)) ∧
        schemeSplit l = (pre.map Char.toLower, rest) ∧ l = pre ++ ch :: rest ∧
        (!pre.isEmpty && headIsAlpha pre && pre.all isSchemeChar) = true := by
  rcases hs : splitAtFirst (fun c => c == ':') l with ⟨pre, rest?⟩
  rcases rest? with _ | ⟨ch, rest⟩
  · left
    unfold schemeSplit
    rw [hs]
  · have hdec := saf_decomp hs
    by_cases hcond : (!pre.isEmpty && headIsAlpha pre && pre.all isSchemeChar) = true
    · right
      refine ⟨pre, ch, rest, rfl, ?_, hdec.1, hcond⟩
      unfold schemeSplit
      rw [hs]
      simp [hcond]
    · left
      have hcond2 : (!pre.isEmpty && headIsAlpha pre && pre.all isSchemeChar) = false := by
        cases hb : (!pre.isEmpty && headIsAlpha pre && pre.all isSchemeChar) with
        | true => exact absurd hb hcond
        | false => rfl
      unfold schemeSplit
      rw [hs]
      simp [hcond2]

theorem mem_schemeSplit_snd {l : Chars} {c : Char} (h : c ∈ (schemeSplit l).2) : c ∈ l := by
  rcases schemeSplit_cases l with h0 | ⟨pre, ch, rest, _, h1, h2, _⟩
  · rw [h0] at h
    exact h
  · rw [h1] at h
    rw [h2]
    simp [h]

end HCD

namespace HCD

theorem saf_none_fst {p : Char → Bool} {l a : Chars} (h : splitAtFirst p l = (a, none)) :
    a = l := by
  induction l generalizing a with
  | nil => simpa [splitAtFirst] using (congrArg Prod.fst h).symm
  | cons x xs ih =>
    by_cases hx : p x = true
    · rw [saf_cons_pos hx] at h
      have := congrArg Prod.snd h
      simp at this
    · rw [saf_cons_neg (by simpa using hx)] at h
      rw [Prod.ext_iff] at h
      simp at h
      obtain ⟨h1, h2⟩ := h
      have ha := ih (a := (splitAtFirst p xs).1) (by rw [← h2])
      rw [← h1, ha]

theorem urlparseE_ok_destruct {u : Chars} {r : UrlComponents} (h : urlparseE u = .ok r) :
    ∃ s : SplitResult, urlsplitE u = .ok s ∧
      r = ⟨s.scheme, s.netloc, (paramsPhase s.scheme s.path).1,
        (paramsPhase s.scheme s.path).2, s.query, s.fragment⟩ := by
  unfold urlparseE at h
  rcases hs : urlsplitE u with e | s
  · rw [hs] at h
    exact absurd h (by simp)
  · rw [hs] at h
    simp only [Except.ok.injEq] at h
    exact ⟨s, rfl, h.symm⟩

theorem mem_removeCtl {x : Chars} {c : Char} (h : c ∈ removeCtl x) :
    isRemovedCtl c = false := by
  unfold removeCtl at h
  have := (List.mem_filter.mp h).2
  simpa using this

/-- Memberships of each `urlsplit` component in the cleaned input string. -/
theorem urlsplit_component_mem {u : Chars} {s : SplitResult} (h : urlsplitE u = .ok s) :
    (∀ c ∈ s.netloc, c ∈ removeCtl (lstripC0 u)) ∧
    (∀ c ∈ s.path, c ∈ removeCtl (lstripC0 u)) ∧
    (∀ c ∈ s.query, c ∈ removeCtl (lstripC0 u)) ∧
    (∀ c ∈ s.fragment, c ∈ removeCtl (lstripC0 u)) := by
  obtain ⟨rest, rest2, body, hsch, hnl, _, _, hfr, hqr⟩ := urlsplitE_ok_destruct h
  have hrest : ∀ c ∈ rest, c ∈ removeCtl (lstripC0 u) := by
    intro c hc
    apply mem_schemeSplit_snd (l := removeCtl (lstripC0 u))
    rw [hsch]
    exact hc
  have hrest2 : ∀ c ∈ rest2, c ∈ removeCtl (lstripC0 u) := by
    rcases hnl with ⟨_, hnr⟩ | ⟨_, _, hr2⟩
    · intro c hc
      apply hrest
      have h1 : c ∈ (rest.drop 2).dropWhile (fun c => !(isNetlocEnd c)) := by
        have := congrArg Prod.snd hnr
        simp only [netlocSplit] at this
        rw [this]
        exact hc
      exact List.mem_of_mem_drop (mem_dropWhile_imp h1)
    · subst hr2
      exact hrest
  have hnetmem : ∀ c ∈ s.netloc, c ∈ removeCtl (lstripC0 u) := by
    rcases hnl with ⟨_, hnr⟩ | ⟨_, hn0, _⟩
    · intro c hc
      apply hrest
      have h1 : c ∈ (rest.drop 2).takeWhile (fun c => !(isNetlocEnd c)) := by
        have := congrArg Prod.fst hnr
        simp only [netlocSplit] at this
        rw [this]
        exact hc
      exact List.mem_of_mem_drop (mem_takeWhile_mem h1)
    · rw [hn0]
      intro c hc
      simp at hc
  have hbody : ∀ c ∈ body, c ∈ removeCtl (lstripC0 u) := by
    rcases hfr with ⟨c0, hfr⟩ | ⟨hfr, _⟩
    · obtain ⟨hdec, _⟩ := saf_decomp hfr
      intro c hc
      apply hrest2
      rw [hdec]
      simp [hc]
    · intro c hc
      have hb := saf_none_fst hfr
      apply hrest2
      rw [← hb]
      exact hc
  have hfragmem : ∀ c ∈ s.fragment, c ∈ removeCtl (lstripC0 u) := by
    rcases hfr with ⟨c0, hfr⟩ | ⟨_, hf0⟩
    · obtain ⟨hdec, _⟩ := saf_decomp hfr
      intro c hc
      apply hrest2
      rw [hdec]
      simp [hc]
    · rw [hf0]
      intro c hc
      simp at hc
  have hpathmem : ∀ c ∈ s.path, c ∈ removeCtl (lstripC0 u) := by
    rcases hqr with ⟨c0, hqr⟩ | ⟨hqr, _⟩
    · obtain ⟨hdec, _⟩ := saf_decomp hqr
      intro c hc
      apply hbody
      rw [hdec]
      simp [hc]
    · intro c hc
      have hb := saf_none_fst hqr
      apply hbody
      rw [← hb]
      exact hc
  have hquerymem : ∀ c ∈ s.query, c ∈ removeCtl (lstripC0 u) := by
    rcases hqr with ⟨c0, hqr⟩ | ⟨_, hq0⟩
    · obtain ⟨hdec, _⟩ := saf_decomp hqr
      intro c hc
      apply hbody
      rw [hdec]
      simp [hc]
    · rw [hq0]
      intro c hc
      simp at hc
  exact ⟨hnetmem, hpathmem, hquerymem, hfragmem⟩

end HCD

namespace HCD

theorem saf_snd_none_all {p : Char → Bool} {l a : Chars} (h : splitAtFirst p l = (a, none)) :
    ∀ c ∈ l, p c = false := by
  induction l generalizing a with
  | nil => simp
  | cons x xs ih =>
    by_cases hx : p x = true
    · rw [saf_cons_pos hx] at h
      have := congrArg Prod.snd h
      simp at this
    · rw [saf_cons_neg (by simpa using hx)] at h
      rw [Prod.ext_iff] at h
      simp at h
      intro c hc
      rcases List.mem_cons.mp hc with hc | hc
      · subst hc; simpa using hx
      · exact ih (a := (splitAtFirst p xs).1) (by rw [← h.2]) c hc

theorem head?_mem {l : Chars} {c : Char} (h : l.head? = some c) : c ∈ l := by
  cases l with
  | nil => simp at h
  | cons x xs =>
    simp at h
    subst h
    simp

/-- Structural facts about a successful `urlsplit`. -/
theorem urlsplit_wf {u : Chars} {s : SplitResult} (h : urlsplitE u = .ok s) :
    (∀ c ∈ s.netloc, isNetlocEnd c = false) ∧
    bracketMismatch s.netloc = false ∧
    (s.netloc.contains '[' && s.netloc.contains ']' &&
      !bracketedHostOk (bracketContent s.netloc)) = false ∧
    (∀ c ∈ s.path, (c == '#') = false ∧ (c == '?') = false) ∧
    (∀ c ∈ s.query, (c == '#') = false) ∧
    (s.netloc ≠ [] → s.path = [] ∨ s.path.head? = some '/') := by
  obtain ⟨rest, rest2, body, hsch, hnl, hbm, hbh, hfr, hqr⟩ := urlsplitE_ok_destruct h
  have hbodyhash : ∀ c ∈ body, (c == '#') = false := by
    rcases hfr with ⟨c0, hfr0⟩ | ⟨hfr0, _⟩
    · intro c hc
      have hb : body = (splitAtFirst (fun c => c == '#') rest2).1 := by rw [hfr0]
      exact saf_fst_false c (by rw [← hb]; exact hc)
    · intro c hc
      exact saf_snd_none_all hfr0 c (by rw [saf_none_fst hfr0] at hc ; exact hc)
  have hpathsub : ∀ c ∈ s.path, c ∈ body := by
    rcases hqr with ⟨c0, hqr0⟩ | ⟨hqr0, _⟩
    · obtain ⟨hdec, _⟩ := saf_decomp hqr0
      intro c hc
      rw [hdec]
      simp [hc]
    · intro c hc
      rw [← saf_none_fst hqr0]
      exact hc
  have hquerysub : ∀ c ∈ s.query, c ∈ body := by
    rcases hqr with ⟨c0, hqr0⟩ | ⟨_, hq0⟩
    · obtain ⟨hdec, _⟩ := saf_decomp hqr0
      intro c hc
      rw [hdec]
      simp [hc]
    · rw [hq0]
      intro c hc
      simp at hc
  have hpathq : ∀ c ∈ s.path, (c == '?') = false := by
    rcases hqr with ⟨c0, hqr0⟩ | ⟨hqr0, _⟩
    · intro c hc
      have hb : s.path = (splitAtFirst (fun c => c == '?') body).1 := by rw [hqr0]
      exact saf_fst_false c (by rw [← hb]; exact hc)
    · intro c hc
      exact saf_snd_none_all hqr0 c (by rw [saf_none_fst hqr0] at hc ; exact hc)
  have hnetfact : ∀ c ∈ s.netloc, isNetlocEnd c = false := by
    rcases hnl with ⟨_, hnr⟩ | ⟨_, hn0, _⟩
    · intro c hc
      have h1 : c ∈ (rest.drop 2).takeWhile (fun c => !(isNetlocEnd c)) := by
        have h2 := congrArg Prod.fst hnr
        simp only [netlocSplit] at h2
        rw [h2]
        exact hc
      have h3 := List.mem_takeWhile_imp h1
      simpa using h3
    · rw [hn0]
      intro c hc
      simp at hc
  have hhead : s.netloc ≠ [] → s.path = [] ∨ s.path.head? = some '/' := by
    intro hne
    rcases hnl with ⟨_, hnr⟩ | ⟨_, hn0, _⟩
    · have hrest2 : rest2 = (rest.drop 2).dropWhile (fun c => !(isNetlocEnd c)) := by
        have h2 := congrArg Prod.snd hnr
        simp only [netlocSplit] at h2
        rw [← h2]
      have hbodyh : body = [] ∨ body.head? = rest2.head? := by
        rcases hfr with ⟨c0, hfr0⟩ | ⟨hfr0, _⟩
        · have h3 := saf_fst_head (p := fun c => c == '#') rest2
          rw [hfr0] at h3
          exact h3
        · rw [saf_none_fst hfr0]
          right; rfl
      have hpathh : s.path = [] ∨ s.path.head? = body.head? := by
        rcases hqr with ⟨c0, hqr0⟩ | ⟨hqr0, _⟩
        · have h3 := saf_fst_head (p := fun c => c == '?') body
          rw [hqr0] at h3
          exact h3
        · rw [saf_none_fst hqr0]
          right; rfl
      rcases hpathh with hp | hp
      · exact Or.inl hp
      rcases hbodyh with hb | hb
      · left
        have h4 : s.path.head? = none := by rw [hp, hb]; rfl
        exact List.head?_eq_none_iff.mp h4
      · have hph : s.path.head? = rest2.head? := by rw [hp, hb]
        cases hr2 : rest2 with
        | nil =>
          left
          have h4 : s.path.head? = none := by rw [hph, hr2]; rfl
          exact List.head?_eq_none_iff.mp h4
        | cons c cs =>
          right
          have hcfail : (!(isNetlocEnd c)) = false := by
            apply head?_dropWhile_false (p := fun c => !(isNetlocEnd c)) (l := rest.drop 2)
            rw [← hrest2, hr2]
            rfl
          have hcnet : isNetlocEnd c = true := by simpa using hcfail
          have hcmem : c ∈ s.path := head?_mem (by rw [hph, hr2]; rfl)
          have hq := hpathq c hcmem
          have hh := hbodyhash c (hpathsub c hcmem)
          have hcslash : (c == '/') = true := by
            unfold isNetlocEnd at hcnet
            rw [hq, hh] at hcnet
            simpa using hcnet
          have hc0 : c = '/' := beq_iff_eq.mp hcslash
          rw [hph, hr2, hc0]
          rfl
    · exact absurd hn0 hne
  refine ⟨hnetfact, by simpa using hbm, by simpa using hbh, ?_, ?_, hhead⟩
  · intro c hc
    exact ⟨hbodyhash c (hpathsub c hc), hpathq c hc⟩
  · intro c hc
    exact hbodyhash c (hquerysub c hc)

end HCD

namespace HCD

theorem no_mem_of_contains_false {l : Chars} {c : Char} (h : l.contains c = false) :
    ∀ x ∈ l, (x == c) = false := by
  intro x hx
  cases hb : (x == c) with
  | false => rfl
  | true =>
    exfalso
    have h2 : l.contains c = true := by
      apply List.contains_iff_exists_mem_beq.mpr
      exact ⟨x, hx, by rw [beq_iff_eq]; exact (beq_iff_eq.mp hb).symm⟩
    rw [h] at h2
    cases h2

theorem head?_append_left {l x : Chars} (h : l ≠ []) : (l ++ x).head? = l.head? := by
  cases l with
  | nil => exact absurd rfl h
  | cons c cs => rfl

/-- Structural facts about the parameter-splitting phase, for a scheme that
uses parameters. -/
theorem paramsPhase_wf {sch p : Chars} (husage : usesParamsSchemes.contains sch = true) :
    (∀ c ∈ (paramsPhase sch p).1, c ∈ p) ∧
    (∀ c ∈ (paramsPhase sch p).2, c ∈ p) ∧
    (∀ c ∈ (paramsPhase sch p).2, (c == '/') = false) ∧
    ((paramsPhase sch p).1 = [] ∨ (paramsPhase sch p).1.head? = p.head?) ∧
    (∀ c ∈ afterLastSlash (paramsPhase sch p).1, (c == ';') = false) := by
  by_cases hsemi : p.contains ';' = true
  · have hcond : (paramsPhase sch p) = splitParamsFn p := by
      unfold paramsPhase
      rw [if_pos ⟨husage, hsemi⟩]
    rw [hcond]
    by_cases hslash : p.contains '/' = true
    · obtain ⟨a0, ha0⟩ := afterLastSlash_slash_decomp hslash
      have hbsub : ∀ c ∈ afterLastSlash p, c ∈ p := fun c hc => afterLastSlash_mem hc
      rcases hsp : splitAtFirst (fun c => c == ';') (afterLastSlash p) with ⟨b1, r?⟩
      rcases r? with _ | ⟨ch, b2⟩
      · have hres : splitParamsFn p = (p, []) := by
          unfold splitParamsFn
          rw [if_pos hslash]
          dsimp only
          rw [hsp]
        rw [hres]
        refine ⟨fun c hc => hc, by simp, by simp, Or.inr rfl, ?_⟩
        intro c hc
        exact saf_snd_none_all hsp c hc
      · have hres : splitParamsFn p =
            (p.take (p.length - (afterLastSlash p).length) ++ b1, b2) := by
          unfold splitParamsFn
          rw [if_pos hslash]
          dsimp only
          rw [hsp]
        obtain ⟨hbdec, _⟩ := saf_decomp hsp
        have hlen := congrArg List.length ha0
        simp only [List.length_append, List.length_cons] at hlen
        have hklen : p.length - (afterLastSlash p).length = (a0 ++ ['/']).length := by
          rw [hlen]
          simp
          omega
        have htake : p.take (p.length - (afterLastSlash p).length) = a0 ++ ['/'] := by
          rw [hklen]
          conv_lhs => rw [ha0]
          rw [show a0 ++ '/' :: afterLastSlash p = (a0 ++ ['/']) ++ afterLastSlash p by simp]
          exact List.take_left _ _
        have hb1sub : ∀ c ∈ b1, c ∈ afterLastSlash p := by
          intro c hc
          rw [hbdec]
          simp [hc]
        have hb2sub : ∀ c ∈ b2, c ∈ afterLastSlash p := by
          intro c hc
          rw [hbdec]
          simp [hc]
        rw [hres]
        refine ⟨?_, ?_, ?_, ?_, ?_⟩
        · intro c hc
          rcases List.mem_append.mp hc with hc | hc
          · exact List.take_subset _ _ hc
          · exact hbsub c (hb1sub c hc)
        · intro c hc
          exact hbsub c (hb2sub c hc)
        · intro c hc
          exact afterLastSlash_no_slash c (hb2sub c hc)
        · right
          rw [htake]
          have hne : a0 ++ ['/'] ≠ [] := by simp
          rw [head?_append_left (x := b1) hne]
          conv_rhs => rw [ha0]
          rw [show a0 ++ '/' :: afterLastSlash p = (a0 ++ ['/']) ++ afterLastSlash p by simp]
          rw [head?_append_left (x := afterLastSlash p) hne]
        · intro c hc
          rw [htake] at hc
          rw [@afterLastSlash_sentinel a0 b1
            (fun x hx => afterLastSlash_no_slash x (hb1sub x hx))] at hc
          have hb1 : b1 = (splitAtFirst (fun c => c == ';') (afterLastSlash p)).1 := by
            rw [hsp]
          exact saf_fst_false c (by rw [← hb1]; exact hc)
    · have hslash2 : p.contains '/' = false := by
        cases hb : p.contains '/' with
        | false => rfl
        | true => exact absurd hb hslash
      have hnmem : '/' ∉ p := by
        intro hm
        have h2 : p.contains '/' = true :=
          List.contains_iff_exists_mem_beq.mpr ⟨'/', hm, by decide⟩
        rw [hslash2] at h2
        cases h2
      rcases hsp : splitAtFirst (fun c => c == ';') p with ⟨a, r?⟩
      rcases r? with _ | ⟨ch, b2⟩
      · have hres : splitParamsFn p = (p, []) := by
          unfold splitParamsFn
          rw [if_neg (by simpa using hnmem)]
          rw [hsp]
        rw [hres]
        refine ⟨fun c hc => hc, by simp, by simp, Or.inr rfl, ?_⟩
        intro c hc
        exact saf_snd_none_all hsp c (afterLastSlash_mem hc)
      · have hres : splitParamsFn p = (a, b2) := by
          unfold splitParamsFn
          rw [if_neg (by simpa using hnmem)]
          rw [hsp]
        obtain ⟨hdec, _⟩ := saf_decomp hsp
        rw [hres]
        refine ⟨?_, ?_, ?_, ?_, ?_⟩
        · intro c hc
          rw [hdec]
          simp [hc]
        · intro c hc
          rw [hdec]
          simp [hc]
        · intro c hc
          apply no_mem_of_contains_false hslash2
          rw [hdec]
          simp [hc]
        · have h3 := saf_fst_head (p := fun c => c == ';') p
          rw [hsp] at h3
          exact h3
        · intro c hc
          have ha : a = (splitAtFirst (fun c => c == ';') p).1 := by rw [hsp]
          exact saf_fst_false c (by rw [← ha]; exact afterLastSlash_mem hc)
  · have hcond : (paramsPhase sch p) = (p, []) := by
      unfold paramsPhase
      rw [if_neg (by intro hcontra; exact hsemi hcontra.2)]
    rw [hcond]
    refine ⟨fun c hc => hc, by simp, by simp, Or.inr rfl, ?_⟩
    intro c hc
    apply no_mem_of_contains_false (c := ';')
    · cases hb : p.contains ';' with
      | false => rfl
      | true => exact absurd hb hsemi
    · exact afterLastSlash_mem hc

end HCD

namespace HCD

/-- Well-formedness facts about a successful `urlparse` whose scheme uses
parameters. -/
theorem urlparse_wf {u : Chars} {r : UrlComponents} (h : urlparseE u = .ok r)
    (husage : usesParamsSchemes.contains r.scheme = true) :
    (∀ c ∈ r.netloc, isNetlocEnd c = false ∧ isRemovedCtl c = false) ∧
    bracketMismatch r.netloc = false ∧
    (r.netloc.contains '[' && r.netloc.contains ']' &&
      !bracketedHostOk (bracketContent r.netloc)) = false ∧
    (∀ c ∈ r.path, (c == '#') = false ∧ (c == '?') = false ∧ isRemovedCtl c = false) ∧
    (∀ c ∈ r.params, (c == '#') = false ∧ (c == '?') = false ∧ (c == '/') = false ∧
      isRemovedCtl c = false) ∧
    (∀ c ∈ r.query, (c == '#') = false ∧ isRemovedCtl c = false) ∧
    (∀ c ∈ r.fragment, isRemovedCtl c = false) ∧
    (r.netloc ≠ [] → r.path = [] ∨ r.path.head? = some '/') ∧
    (∀ c ∈ afterLastSlash r.path, (c == ';') = false) := by
  obtain ⟨s, hsE, hreq⟩ := urlparseE_ok_destruct h
  obtain ⟨hnet, hbm, hbh, hpath, hquery, hhead⟩ := urlsplit_wf hsE
  obtain ⟨hnm, hpm, hqm, hfm⟩ := urlsplit_component_mem hsE
  subst hreq
  obtain ⟨pp1, pp2, pp3, pp4, pp5⟩ :=
    @paramsPhase_wf s.scheme s.path husage
  refine ⟨?_, hbm, hbh, ?_, ?_, ?_, ?_, ?_, pp5⟩
  · intro c hc
    exact ⟨hnet c hc, mem_removeCtl (hnm c hc)⟩
  · intro c hc
    have hc2 := pp1 c hc
    exact ⟨(hpath c hc2).1, (hpath c hc2).2, mem_removeCtl (hpm c hc2)⟩
  · intro c hc
    have hc2 := pp2 c hc
    exact ⟨(hpath c hc2).1, (hpath c hc2).2, pp3 c hc, mem_removeCtl (hpm c hc2)⟩
  · intro c hc
    exact ⟨hquery c hc, mem_removeCtl (hqm c hc)⟩
  · intro c hc
    exact mem_removeCtl (hfm c hc)
  · intro hne
    rcases pp4 with h0 | h0
    · exact Or.inl h0
    · rcases hhead hne with hp | hp
      · left
        apply List.head?_eq_none_iff.mp
        rw [h0, hp]
        rfl
      · right
        rw [h0, hp]

theorem head?_cons_decomp {l : Chars} {c : Char} (h : l.head? = some c) :
    ∃ tl, l = c :: tl := by
  cases l with
  | nil => simp at h
  | cons x xs =>
    simp at h
    subst h
    exact ⟨xs, rfl⟩

/-- Explicit form of `urlunsplit` when the netloc is nonempty, the path starts
with a slash and there is a scheme. -/
theorem urlunsplit_netloc (s n P q f : Chars) (hn : n ≠ []) (hP : P.head? = some '/')
    (hs : s ≠ []) :
    urlunsplit s n P q f =
      s ++ ':' :: '/' :: '/' :: (n ++ (P ++
        ((if q = [] then [] else '?' :: q) ++ (if f = [] then [] else '#' :: f)))) := by
  have hPtake : ¬(P ≠ [] ∧ P.take 1 ≠ ['/']) := by
    obtain ⟨tl, htl⟩ := head?_cons_decomp hP
    intro hcon
    apply hcon.2
    rw [htl]
    rfl
  simp only [urlunsplit]
  rw [if_pos (Or.inl hn), if_neg hPtake, if_pos hs]
  by_cases hq0 : q = [] <;> by_cases hf0 : f = [] <;>
    simp [hq0, hf0, List.append_assoc]

end HCD


namespace HCD

theorem isEmpty_false_of_ne {l : Chars} (h : l ≠ []) : l.isEmpty = false := by
  cases l with
  | nil => exact absurd rfl h
  | cons c cs => rfl

/-- Reparsing the string reassembled by `urlunsplit` recovers the five
components, under the invariants the splitter guarantees for its own output. -/
theorem split_unsplit (s n P q f : Chars)
    (hs_ne : s ≠ [])
    (hs_chars : ∀ c ∈ s, (c == ':') = false ∧ isSchemeChar c = true ∧
      isRemovedCtl c = false)
    (hs_alpha : headIsAlpha s = true)
    (hs_lower : s.map Char.toLower = s)
    (hs_c0 : ∃ c0 s1, s = c0 :: s1 ∧ isC0OrSpace c0 = false)
    (hn_end : ∀ c ∈ n, isNetlocEnd c = false)
    (hn_ctl : ∀ c ∈ n, isRemovedCtl c = false)
    (hn_ne : n ≠ [])
    (hbm : bracketMismatch n = false)
    (hbh : (n.contains '[' && n.contains ']' && !bracketedHostOk (bracketContent n)) = false)
    (hP_hash : ∀ c ∈ P, (c == '#') = false)
    (hP_q : ∀ c ∈ P, (c == '?') = false)
    (hP_ctl : ∀ c ∈ P, isRemovedCtl c = false)
    (hP_head : P.head? = some '/')
    (hq : ∀ c ∈ q, (c == '#') = false ∧ isRemovedCtl c = false)
    (hf : ∀ c ∈ f, isRemovedCtl c = false) :
    urlsplitE (urlunsplit s n P q f) = .ok ⟨s, n, P, q, f⟩ := by
  have hU := urlunsplit_netloc s n P q f hn_ne hP_head hs_ne
  rw [hU]
  obtain ⟨c0, s1, hs0, hc0⟩ := hs_c0
  obtain ⟨Ptl, hPtl⟩ := head?_cons_decomp hP_head
  set QF : Chars := (if q = [] then [] else '?' :: q) ++ (if f = [] then [] else '#' :: f)
    with hQF
  set rest : Chars := '/' :: '/' :: (n ++ (P ++ QF)) with hrest
  set U : Chars := s ++ ':' :: rest with hUdef
  have hQF_ctl : ∀ c ∈ QF, isRemovedCtl c = false := by
    rw [hQF]
    intro c hc
    rcases List.mem_append.mp hc with hc | hc
    · by_cases hq0 : q = []
      · simp [hq0] at hc
      · simp [hq0] at hc
        rcases hc with hc | hc
        · subst hc; decide
        · exact (hq c hc).2
    · by_cases hf0 : f = []
      · simp [hf0] at hc
      · simp [hf0] at hc
        rcases hc with hc | hc
        · subst hc; decide
        · exact hf c hc
  have hU1 : lstripC0 U = U := by
    rw [hUdef, hs0, List.cons_append]
    exact dw_cons_false _ hc0
  have hU2 : removeCtl U = U := by
    unfold removeCtl
    apply List.filter_eq_self.mpr
    intro c hc
    rw [hUdef] at hc
    simp only [Bool.not_eq_true']
    rcases List.mem_append.mp hc with hc | hc
    · exact (hs_chars c hc).2.2
    · rcases List.mem_cons.mp hc with hc | hc
      · subst hc; decide
      · rw [hrest] at hc
        rcases List.mem_cons.mp hc with hc | hc
        · subst hc; decide
        · rcases List.mem_cons.mp hc with hc | hc
          · subst hc; decide
          · rcases List.mem_append.mp hc with hc | hc
            · exact hn_ctl c hc
            · rcases List.mem_append.mp hc with hc | hc
              · exact hP_ctl c hc
              · exact hQF_ctl c hc
  have hsplit1 : splitAtFirst (fun c => c == ':') U = (s, some (':', rest)) := by
    rw [hUdef]
    exact saf_found _ (fun x hx => (hs_chars x hx).1) (by decide)
  have hscheme : schemeSplit U = (s, rest) := by
    unfold schemeSplit
    rw [hsplit1]
    dsimp only
    rw [if_pos (by
      simp only [Bool.and_eq_true]
      refine ⟨⟨?_, hs_alpha⟩, ?_⟩
      · simp [isEmpty_false_of_ne hs_ne]
      · exact List.all_eq_true.mpr (fun c hc => (hs_chars c hc).2.1))]
    rw [hs_lower]
  have hnls : netlocSplit (n ++ (P ++ QF)) = (n, P ++ QF) := by
    unfold netlocSplit
    have h1 : (n ++ (P ++ QF)).takeWhile (fun c => !(isNetlocEnd c)) = n := by
      rw [tw_append_all _ (fun c hc => by simp [hn_end c hc])]
      rw [hPtl, List.cons_append, tw_cons_false _ (by decide)]
      simp
    have h2 : (n ++ (P ++ QF)).dropWhile (fun c => !(isNetlocEnd c)) = P ++ QF := by
      rw [dw_append_all _ (fun c hc => by simp [hn_end c hc])]
      rw [hPtl, List.cons_append, dw_cons_false _ (by decide)]
    rw [h1, h2]
  simp only [urlsplitE]
  rw [hU1, hU2, hscheme]
  have htake : rest.take 2 = ['/', '/'] := by rw [hrest]; rfl
  rw [if_pos htake]
  have hdrop : rest.drop 2 = n ++ (P ++ QF) := by rw [hrest]; rfl
  rw [hdrop, hnls]
  rw [if_neg (by simp [hbm]), if_neg (by rw [hbh]; simp)]
  -- fragment and query splitting
  by_cases hf0 : f = []
  · by_cases hq0 : q = []
    · have hQF0 : QF = [] := by rw [hQF]; simp [hq0, hf0]
      rw [hQF0, List.append_nil]
      have hfr : splitAtFirst (fun c => c == '#') P = (P, none) := saf_none hP_hash
      rw [hfr]
      have hqr : splitAtFirst (fun c => c == '?') P = (P, none) := saf_none hP_q
      rw [hqr]
      rw [hq0, hf0]
    · have hQF0 : QF = '?' :: q := by rw [hQF]; simp [hq0, hf0]
      rw [hQF0]
      have hfr : splitAtFirst (fun c => c == '#') (P ++ '?' :: q) = (P ++ '?' :: q, none) := by
        apply saf_none
        intro c hc
        rcases List.mem_append.mp hc with hc | hc
        · exact hP_hash c hc
        · rcases List.mem_cons.mp hc with hc | hc
          · subst hc; decide
          · exact (hq c hc).1
      rw [hfr]
      have hqr : splitAtFirst (fun c => c == '?') (P ++ '?' :: q) = (P, some ('?', q)) :=
        saf_found _ hP_q (by decide)
      rw [hqr]
      rw [hf0]
  · have hQF0 : QF = (if q = [] then [] else '?' :: q) ++ '#' :: f := by
      rw [hQF]
      simp [hf0]
    have hfr : splitAtFirst (fun c => c == '#')
        (P ++ QF) = (P ++ (if q = [] then [] else '?' :: q), some ('#', f)) := by
      rw [hQF0, ← List.append_assoc]
      apply saf_found _ ?_ (by decide)
      intro c hc
      rcases List.mem_append.mp hc with hc | hc
      · exact hP_hash c hc
      · by_cases hq0 : q = []
        · simp [hq0] at hc
        · simp [hq0] at hc
          rcases hc with hc | hc
          · subst hc; decide
          · exact (hq c hc).1
    rw [hfr]
    by_cases hq0 : q = []
    · have h3 : P ++ (if q = [] then [] else '?' :: q) = P := by simp [hq0]
      rw [h3]
      have hqr : splitAtFirst (fun c => c == '?') P = (P, none) := saf_none hP_q
      rw [hqr]
      rw [hq0]
    · have h3 : P ++ (if q = [] then [] else '?' :: q) = P ++ '?' :: q := by simp [hq0]
      rw [h3]
      have hqr : splitAtFirst (fun c => c == '?') (P ++ '?' :: q) = (P, some ('?', q)) :=
        saf_found _ hP_q (by decide)
      rw [hqr]

end HCD

namespace HCD

/-- The parameter phase undoes the params join performed by `urlunparse`. -/
theorem paramsPhase_rejoin (s pp pa : Chars)
    (husage : usesParamsSchemes.contains s = true)
    (hpp_slash : pp.contains '/' = true)
    (hpp_tail : ∀ c ∈ afterLastSlash pp, (c == ';') = false)
    (hpa_slash : ∀ c ∈ pa, (c == '/') = false) :
    paramsPhase s (if pa ≠ [] then pp ++ ';' :: pa else pp) = (pp, pa) := by
  by_cases hpa0 : pa = []
  · rw [if_neg (by simpa using hpa0)]
    subst hpa0
    by_cases hsemi : pp.contains ';' = true
    · unfold paramsPhase
      rw [if_pos ⟨husage, hsemi⟩]
      unfold splitParamsFn
      rw [if_pos hpp_slash]
      dsimp only
      have hsp : splitAtFirst (fun c => c == ';') (afterLastSlash pp) =
          (afterLastSlash pp, none) := saf_none hpp_tail
      rw [hsp]
    · unfold paramsPhase
      rw [if_neg (fun hcon => hsemi hcon.2)]
  · rw [if_pos hpa0]
    have hsemi : (pp ++ ';' :: pa).contains ';' = true := by
      apply List.contains_iff_exists_mem_beq.mpr
      exact ⟨';', by simp, by decide⟩
    have hslash : (pp ++ ';' :: pa).contains '/' = true := by
      rcases List.contains_iff_exists_mem_beq.mp hpp_slash with ⟨x, hx, hb⟩
      exact List.contains_iff_exists_mem_beq.mpr ⟨x, by simp [hx], hb⟩
    unfold paramsPhase
    rw [if_pos ⟨husage, hsemi⟩]
    unfold splitParamsFn
    rw [if_pos hslash]
    dsimp only
    have hals : afterLastSlash (pp ++ ';' :: pa) = afterLastSlash pp ++ ';' :: pa := by
      apply afterLastSlash_append_nosl
      intro c hc
      rcases List.mem_cons.mp hc with hc | hc
      · subst hc; decide
      · exact hpa_slash c hc
    rw [hals]
    have hsp : splitAtFirst (fun c => c == ';') (afterLastSlash pp ++ ';' :: pa) =
        (afterLastSlash pp, some (';', pa)) := saf_found _ hpp_tail (by decide)
    rw [hsp]
    obtain ⟨a1, ha1⟩ := afterLastSlash_suffix pp
    have hlenpp := congrArg List.length ha1
    simp only [List.length_append] at hlenpp
    have hklen : (pp ++ ';' :: pa).length - (afterLastSlash pp ++ ';' :: pa).length =
        a1.length := by
      simp only [List.length_append, List.length_cons]
      omega
    rw [hklen]
    have htake : (pp ++ ';' :: pa).take a1.length = a1 := by
      conv_lhs =>
        rw [show pp ++ ';' :: pa = a1 ++ (afterLastSlash pp ++ ';' :: pa) by
          rw [← List.append_assoc, ← ha1]]
      exact List.take_left _ _
    rw [htake]
    dsimp only
    rw [← ha1]

/-- Reparsing the string reassembled by `urlunparse` recovers the components,
under the invariants the parser guarantees for http/https results. -/
theorem parse_unparse (s n pp pa q f : Chars)
    (hs : s = "http".data ∨ s = "https".data)
    (hn_end : ∀ c ∈ n, isNetlocEnd c = false)
    (hn_ctl : ∀ c ∈ n, isRemovedCtl c = false)
    (hn_ne : n ≠ [])
    (hbm : bracketMismatch n = false)
    (hbh : (n.contains '[' && n.contains ']' && !bracketedHostOk (bracketContent n)) = false)
    (hpp_hash : ∀ c ∈ pp, (c == '#') = false)
    (hpp_q : ∀ c ∈ pp, (c == '?') = false)
    (hpp_ctl : ∀ c ∈ pp, isRemovedCtl c = false)
    (hpp_head : pp.head? = some '/')
    (hpp_slash : pp.contains '/' = true)
    (hpp_tail : ∀ c ∈ afterLastSlash pp, (c == ';') = false)
    (hpa : ∀ c ∈ pa, (c == '#') = false ∧ (c == '?') = false ∧ (c == '/') = false ∧
      isRemovedCtl c = false)
    (hq : ∀ c ∈ q, (c == '#') = false ∧ isRemovedCtl c = false)
    (hf : ∀ c ∈ f, isRemovedCtl c = false) :
    urlparseE (urlunparse ⟨s, n, pp, pa, q, f⟩) = .ok ⟨s, n, pp, pa, q, f⟩ := by
  obtain ⟨pptl, hpptl⟩ := head?_cons_decomp hpp_head
  have hP_head : (if pa ≠ [] then pp ++ ';' :: pa else pp).head? = some '/' := by
    by_cases hpa0 : pa = []
    · rw [if_neg (by simpa using hpa0)]
      exact hpp_head
    · rw [if_pos hpa0, hpptl]
      rfl
  have hP_hash : ∀ c ∈ (if pa ≠ [] then pp ++ ';' :: pa else pp), (c == '#') = false := by
    by_cases hpa0 : pa = []
    · rw [if_neg (by simpa using hpa0)]
      exact hpp_hash
    · rw [if_pos hpa0]
      intro c hc
      rcases List.mem_append.mp hc with hc | hc
      · exact hpp_hash c hc
      · rcases List.mem_cons.mp hc with hc | hc
        · subst hc; decide
        · exact (hpa c hc).1
  have hP_q : ∀ c ∈ (if pa ≠ [] then pp ++ ';' :: pa else pp), (c == '?') = false := by
    by_cases hpa0 : pa = []
    · rw [if_neg (by simpa using hpa0)]
      exact hpp_q
    · rw [if_pos hpa0]
      intro c hc
      rcases List.mem_append.mp hc with hc | hc
      · exact hpp_q c hc
      · rcases List.mem_cons.mp hc with hc | hc
        · subst hc; decide
        · exact (hpa c hc).2.1
  have hP_ctl : ∀ c ∈ (if pa ≠ [] then pp ++ ';' :: pa else pp), isRemovedCtl c = false := by
    by_cases hpa0 : pa = []
    · rw [if_neg (by simpa using hpa0)]
      exact hpp_ctl
    · rw [if_pos hpa0]
      intro c hc
      rcases List.mem_append.mp hc with hc | hc
      · exact hpp_ctl c hc
      · rcases List.mem_cons.mp hc with hc | hc
        · subst hc; decide
        · exact (hpa c hc).2.2.2
  have hs_ne : s ≠ [] := by rcases hs with h | h <;> subst h <;> decide
  have hs_chars : ∀ c ∈ s, (c == ':') = false ∧ isSchemeChar c = true ∧
      isRemovedCtl c = false := by
    rcases hs with h | h <;> subst h <;> decide
  have hs_alpha : headIsAlpha s = true := by rcases hs with h | h <;> subst h <;> decide
  have hs_lower : s.map Char.toLower = s := by rcases hs with h | h <;> subst h <;> decide
  have hs_usage : usesParamsSchemes.contains s = true := by
    rcases hs with h | h <;> subst h <;> decide
  have hs_c0 : ∃ c0 s1, s = c0 :: s1 ∧ isC0OrSpace c0 = false := by
    rcases hs with h | h <;> subst h
    · exact ⟨'h', ['t', 't', 'p'], rfl, by decide⟩
    · exact ⟨'h', ['t', 't', 'p', 's'], rfl, by decide⟩
  have hsplit := split_unsplit s n (if pa ≠ [] then pp ++ ';' :: pa else pp) q f
    hs_ne hs_chars hs_alpha hs_lower hs_c0 hn_end hn_ctl hn_ne hbm hbh
    hP_hash hP_q hP_ctl hP_head hq hf
  unfold urlparseE
  unfold urlunparse
  dsimp only at hsplit ⊢
  rw [hsplit]
  dsimp only
  rw [paramsPhase_rejoin s pp pa hs_usage hpp_slash hpp_tail
    (fun c hc => (hpa c hc).2.2.1)]

end HCD

namespace HCD

theorem ends_slash_decomp {l : Chars} (h : endsWithSlash l = true) :
    ∃ a, l = a ++ ['/'] := by
  unfold endsWithSlash at h
  have h2 : l.getLast? = some '/' := by
    cases hg : l.getLast? with
    | none => rw [hg] at h; cases h
    | some c =>
      rw [hg] at h
      simp at h
      rw [h]
  have h3 : l.reverse.head? = some '/' := by
    rw [List.head?_reverse]
    exact h2
  obtain ⟨tl, htl⟩ := head?_cons_decomp h3
  refine ⟨tl.reverse, ?_⟩
  have h4 := congrArg List.reverse htl
  rw [List.reverse_reverse] at h4
  rw [h4]
  simp

/-- Core derivation lemma: on every base URL accepted by the validity check,
`_build_url_with_path` appends the segment to the path with exactly one `/`
separator and keeps the other components; the result reparses to exactly
those components. -/
theorem derive_suburl_core (u seg : Chars) (r : UrlComponents)
    (hu : urlparseE u = .ok r)
    (hsch : r.scheme = "http".data ∨ r.scheme = "https".data)
    (hnet : r.netloc ≠ [])
    (hseg : seg = "start".data ∨ seg = "fail".data) :
    buildUrlWithPath u seg = .ok (urlunparse ⟨r.scheme, r.netloc,
      r.path ++ (if endsWithSlash r.path then [] else ['/']) ++ seg,
      r.params, r.query, r.fragment⟩) ∧
    urlparseE (urlunparse ⟨r.scheme, r.netloc,
        r.path ++ (if endsWithSlash r.path then [] else ['/']) ++ seg,
        r.params, r.query, r.fragment⟩) =
      .ok ⟨r.scheme, r.netloc,
        r.path ++ (if endsWithSlash r.path then [] else ['/']) ++ seg,
        r.params, r.query, r.fragment⟩ := by
  have husage : usesParamsSchemes.contains r.scheme = true := by
    rcases hsch with h | h <;> rw [h] <;> decide
  obtain ⟨wnet, wbm, wbh, wpath, wparams, wquery, wfrag, whead, wtail⟩ :=
    urlparse_wf hu husage
  have hseg_facts : ∀ c ∈ seg, (c == '#') = false ∧ (c == '?') = false ∧
      (c == '/') = false ∧ (c == ';') = false ∧ isRemovedCtl c = false := by
    rcases hseg with h | h <;> subst h <;> decide
  set sep : Chars := if endsWithSlash r.path then [] else ['/'] with hsep
  have hsep_facts : ∀ c ∈ sep, (c == '#') = false ∧ (c == '?') = false ∧
      isRemovedCtl c = false := by
    rw [hsep]
    by_cases hsl : endsWithSlash r.path = true <;> simp [hsl] <;> decide
  have hpp_hash : ∀ c ∈ r.path ++ sep ++ seg, (c == '#') = false := by
    intro c hc
    rcases List.mem_append.mp hc with hc | hc
    · rcases List.mem_append.mp hc with hc | hc
      · exact (wpath c hc).1
      · exact (hsep_facts c hc).1
    · exact (hseg_facts c hc).1
  have hpp_q : ∀ c ∈ r.path ++ sep ++ seg, (c == '?') = false := by
    intro c hc
    rcases List.mem_append.mp hc with hc | hc
    · rcases List.mem_append.mp hc with hc | hc
      · exact (wpath c hc).2.1
      · exact (hsep_facts c hc).2.1
    · exact (hseg_facts c hc).2.1
  have hpp_ctl : ∀ c ∈ r.path ++ sep ++ seg, isRemovedCtl c = false := by
    intro c hc
    rcases List.mem_append.mp hc with hc | hc
    · rcases List.mem_append.mp hc with hc | hc
      · exact (wpath c hc).2.2
      · exact (hsep_facts c hc).2.2
    · exact (hseg_facts c hc).2.2.2.2
  have hdecomp : ∃ a, r.path ++ sep = a ++ ['/'] := by
    rw [hsep]
    by_cases hsl : endsWithSlash r.path = true
    · rw [if_pos hsl]
      obtain ⟨a, ha⟩ := ends_slash_decomp hsl
      exact ⟨a, by rw [List.append_nil, ha]⟩
    · rw [if_neg hsl]
      exact ⟨r.path, rfl⟩
  obtain ⟨a, ha⟩ := hdecomp
  have hpp_tail : ∀ c ∈ afterLastSlash (r.path ++ sep ++ seg), (c == ';') = false := by
    rw [ha]
    rw [afterLastSlash_sentinel (fun c hc => (hseg_facts c hc).2.2.1)]
    intro c hc
    exact (hseg_facts c hc).2.2.2.1
  have hpp_slash : (r.path ++ sep ++ seg).contains '/' = true := by
    apply List.contains_iff_exists_mem_beq.mpr
    refine ⟨'/', ?_, by decide⟩
    rw [ha]
    simp
  have hpp_head : (r.path ++ sep ++ seg).head? = some '/' := by
    rcases whead hnet with hp | hp
    · rw [hp] at ha ⊢
      have ha2 : sep = a ++ ['/'] := by rw [← ha]; rfl
      rw [List.nil_append, ha2]
      have hax : a = [] := by
        rw [hp] at hsep
        have : sep = ['/'] := by
          rw [hsep]
          rfl
        rw [this] at ha2
        cases a with
        | nil => rfl
        | cons x xs =>
          have hlen := congrArg List.length ha2
          simp at hlen
      rw [hax]
      rfl
    · obtain ⟨tl, htl⟩ := head?_cons_decomp hp
      rw [htl, List.cons_append, List.cons_append]
      rfl
  have hmain := parse_unparse r.scheme r.netloc (r.path ++ sep ++ seg) r.params
    r.query r.fragment hsch
    (fun c hc => (wnet c hc).1) (fun c hc => (wnet c hc).2) hnet wbm wbh
    hpp_hash hpp_q hpp_ctl hpp_head hpp_slash hpp_tail
    (fun c hc => ⟨(wparams c hc).1, (wparams c hc).2.1, (wparams c hc).2.2.1,
      (wparams c hc).2.2.2⟩)
    (fun c hc => ⟨(wquery c hc).1, (wquery c hc).2⟩)
    wfrag
  refine ⟨?_, hmain⟩
  unfold buildUrlWithPath
  rw [hu]

end HCD


namespace HCD

/-- Unpacking a valid configuration. -/
theorem valid_config_unpack {cfg : HealthcheckConfig} {env : Env}
    (h : configBoolE cfg env = .ok true) :
    ∃ u r, resolveUrl cfg env = some u ∧ u ≠ [] ∧ urlparseE u = .ok r ∧
      (r.scheme = "http".data ∨ r.scheme = "https".data) ∧ r.netloc ≠ [] := by
  unfold configBoolE at h
  rcases hres : resolveUrl cfg env with _ | u
  · rw [hres] at h
    exact absurd h (by decide)
  · rw [hres] at h
    unfold configBoolVal at h
    by_cases hu0 : urlTruthy (.str u) = false
    · rw [if_pos hu0] at h
      exact absurd h (by simp)
    · rw [if_neg hu0] at h
      have hune : u ≠ [] := by
        intro h0
        apply hu0
        rw [h0]
        rfl
      dsimp only at h
      rcases hp : urlparseE u with e | r
      · rw [hp] at h
        simp at h
      · rw [hp] at h
        dsimp only at h
        by_cases hc : validSchemes.contains r.scheme = true
        · rw [if_neg (fun hcon => hcon hc)] at h
          by_cases hn : r.netloc = []
          · rw [if_pos hn] at h
            simp at h
          · exact ⟨u, r, rfl, hune, hp, (validSchemes_contains r.scheme).mp hc, hn⟩
        · rw [if_pos (by
            intro hcon
            exact hc hcon)] at h
          simp at h

/-- `_splittype` on a string with an explicit http/https scheme prefix. -/
theorem splitTypeFn_scheme (s rest : Chars)
    (hs : s = "http".data ∨ s = "https".data) :
    splitTypeFn (s ++ ':' :: rest) = some (s, rest) := by
  have hchars : ∀ c ∈ s, ((c == '/') || (c == ':')) = false := by
    rcases hs with h | h <;> subst h <;> decide
  have hsne : s.isEmpty = false := by rcases hs with h | h <;> subst h <;> decide
  have hlow : pyLower s = s := by rcases hs with h | h <;> subst h <;> decide
  unfold splitTypeFn
  rw [saf_found _ hchars (by decide)]
  dsimp only
  rw [if_pos (by simp [hsne])]
  rw [hlow]

/-- For a url whose parse found a scheme, `_splittype` on the raw string also
finds one (so `urlopen` does not raise `ValueError`). -/
theorem splitTypeFn_of_valid {u : Chars} {r : UrlComponents}
    (hu : urlparseE u = .ok r) (hne : r.scheme ≠ []) :
    ∃ st, splitTypeFn u = some st := by
  obtain ⟨s, hsE, hreq⟩ := urlparseE_ok_destruct hu
  obtain ⟨rest, rest2, body, hsch, _, _, _, _, _⟩ := urlsplitE_ok_destruct hsE
  have hsne : s.scheme ≠ [] := by
    intro h0
    apply hne
    rw [hreq, h0]
  rcases schemeSplit_cases (removeCtl (lstripC0 u)) with h0 | ⟨pre, ch, rest0, hsp, hval, hdec, hcond⟩
  · exfalso
    apply hsne
    rw [h0] at hsch
    exact (congrArg Prod.fst hsch).symm
  · have hch : ch = ':' := by
      have := (saf_decomp hsp).2
      exact beq_iff_eq.mp this
    subst hch
    have hpre_ne : pre ≠ [] := by
      intro h0
      rw [h0] at hcond
      simp at hcond
    have hpre_scheme : ∀ c ∈ pre, isSchemeChar c = true := by
      simp only [Bool.and_eq_true, List.all_eq_true] at hcond
      exact hcond.2
    have hcolon_mem : (':' : Char) ∈ u := by
      have h1 : (':' : Char) ∈ removeCtl (lstripC0 u) := by
        rw [hdec]
        simp
      have h2 : (':' : Char) ∈ lstripC0 u := by
        unfold removeCtl at h1
        exact (List.mem_filter.mp h1).1
      exact mem_dropWhile_imp h2
    rcases hsu : splitAtFirst (fun c => (c == '/') || (c == ':')) u with ⟨preU, r?⟩
    rcases r? with _ | ⟨cU, restU⟩
    · exfalso
      have := saf_snd_none_all hsu ':' hcolon_mem
      simp at this
    · obtain ⟨hudec, hcU⟩ := saf_decomp hsu
      have hpreU : ∀ c ∈ preU, ((c == '/') || (c == ':')) = false := by
        intro c hc
        have hpU : preU = (splitAtFirst (fun c => (c == '/') || (c == ':')) u).1 := by
          rw [hsu]
        exact saf_fst_false c (by rw [← hpU]; exact hc)
      by_cases hcU2 : cU = ':'
      · subst hcU2
        have hpreU_ne : preU ≠ [] := by
          intro h0
          subst h0
          -- u = ':' :: restU, so the cleaned string starts with ':'
          rw [List.nil_append] at hudec
          have hl : lstripC0 u = u := by
            rw [hudec]
            exact dw_cons_false _ (by decide)
          have hr : removeCtl (lstripC0 u) = ':' :: removeCtl restU := by
            rw [hl, hudec]
            rfl
          rw [hr] at hsp
          rw [saf_cons_pos (by decide)] at hsp
          have h1 := congrArg Prod.fst hsp
          simp at h1
          exact hpre_ne h1
        refine ⟨(pyLower preU, restU), ?_⟩
        unfold splitTypeFn
        rw [hsu]
        dsimp only
        rw [if_pos (by simp [isEmpty_false_of_ne hpreU_ne])]
      · have hcU3 : cU = '/' := by
          simp at hcU
          rcases hcU with h1 | h1
          · exact beq_iff_eq.mp (by simpa using h1)
          · exact absurd (beq_iff_eq.mp (by simpa using h1)) hcU2
        subst hcU3
        exfalso
        -- a slash precedes the first colon in u, hence also in the cleaned
        -- string, contradicting that the scheme run is slash-free
        have hstrip : lstripC0 u = lstripC0 preU ++ '/' :: restU := by
          rw [hudec]
          exact dw_append_cons _ _ (by decide)
        have hclean : removeCtl (lstripC0 u) =
            removeCtl (lstripC0 preU) ++ '/' :: removeCtl restU := by
          rw [hstrip]
          unfold removeCtl
          rw [List.filter_append]
          rfl
        have hA : ∀ c ∈ removeCtl (lstripC0 preU), (c == ':') = false := by
          intro c hc
          have h1 : c ∈ preU :=
            mem_dropWhile_imp (by
              unfold removeCtl at hc
              exact (List.mem_filter.mp hc).1)
          have := hpreU c h1
          simp at this
          simp [this.2]
        have hsp2 : splitAtFirst (fun c => c == ':') (removeCtl (lstripC0 u)) =
            ((removeCtl (lstripC0 preU) ++ ['/']) ++
              (splitAtFirst (fun c => c == ':') (removeCtl restU)).1,
              (splitAtFirst (fun c => c == ':') (removeCtl restU)).2) := by
          rw [hclean]
          rw [show removeCtl (lstripC0 preU) ++ '/' :: removeCtl restU =
            (removeCtl (lstripC0 preU) ++ ['/']) ++ removeCtl restU by simp]
          exact saf_append _ (by
            intro c hc
            rcases List.mem_append.mp hc with hc | hc
            · exact hA c hc
            · rcases List.mem_cons.mp hc with hc | hc
              · subst hc; decide
              · simp at hc)
        rw [hsp2] at hsp
        have h1 := congrArg Prod.fst hsp
        simp at h1
        have hslash_pre : ('/' : Char) ∈ pre := by
          rw [← h1]
          simp
        have := hpre_scheme '/' hslash_pre
        simp [isSchemeChar] at this

end HCD

namespace HCD

theorem path_sep_head {u : Chars} {r : UrlComponents} (hu : urlparseE u = .ok r)
    (husage : usesParamsSchemes.contains r.scheme = true)
    (hnet : r.netloc ≠ []) (seg : Chars) :
    (r.path ++ (if endsWithSlash r.path then [] else ['/']) ++ seg).head? = some '/' := by
  obtain ⟨_, _, _, _, _, _, _, whead, _⟩ := urlparse_wf hu husage
  rcases whead hnet with hp | hp
  · rw [hp]
    rw [if_neg (by decide : ¬ (endsWithSlash ([] : Chars) = true))]
    rfl
  · obtain ⟨tl, htl⟩ := head?_cons_decomp hp
    rw [htl, List.cons_append, List.cons_append]
    rfl

/-- Explicit scheme-prefixed shape and length of a derived sub-URL. -/
theorem derive_explicit {u seg : Chars} {r : UrlComponents}
    (hu : urlparseE u = .ok r)
    (hsch : r.scheme = "http".data ∨ r.scheme = "https".data)
    (hnet : r.netloc ≠ []) :
    ∃ tail, buildUrlWithPath u seg = .ok (r.scheme ++ ':' :: tail) ∧
      (r.scheme ++ ':' :: tail).length =
        r.scheme.length + 3 + r.netloc.length + r.path.length +
        (if endsWithSlash r.path then 0 else 1) + seg.length +
        (if r.params = [] then 0 else r.params.length + 1) +
        (if r.query = [] then 0 else r.query.length + 1) +
        (if r.fragment = [] then 0 else r.fragment.length + 1) := by
  have husage : usesParamsSchemes.contains r.scheme = true := by
    rcases hsch with h | h <;> rw [h] <;> decide
  have hs_ne : r.scheme ≠ [] := by rcases hsch with h | h <;> rw [h] <;> decide
  have hpphead := path_sep_head hu husage hnet seg
  obtain ⟨pptl, hpptl⟩ := head?_cons_decomp hpphead
  have hPhead : (if r.params ≠ [] then
      (r.path ++ (if endsWithSlash r.path then [] else ['/']) ++ seg) ++ ';' :: r.params
      else r.path ++ (if endsWithSlash r.path then [] else ['/']) ++ seg).head? =
      some '/' := by
    by_cases hpa0 : r.params = []
    · rw [if_neg (by simpa using hpa0)]
      exact hpphead
    · rw [if_pos hpa0, hpptl]
      rfl
  unfold buildUrlWithPath
  rw [hu]
  dsimp only
  unfold urlunparse
  dsimp only
  rw [urlunsplit_netloc _ _ _ _ _ hnet hPhead hs_ne]
  refine ⟨_, rfl, ?_⟩
  simp only [List.length_append, List.length_cons]
  by_cases h1 : endsWithSlash r.path = true <;>
    by_cases h2 : r.params = [] <;>
      by_cases h3 : r.query = [] <;>
        by_cases h4 : r.fragment = [] <;>
          simp [h1, h2, h3, h4, List.length_append] <;> omega

/-- The derived start and fail URLs are always different (their lengths
differ by one). -/
theorem start_fail_ne {u : Chars} {r : UrlComponents}
    (hu : urlparseE u = .ok r)
    (hsch : r.scheme = "http".data ∨ r.scheme = "https".data)
    (hnet : r.netloc ≠ []) {su fu : Chars}
    (hsu : buildUrlWithPath u "start".data = .ok su)
    (hfu : buildUrlWithPath u "fail".data = .ok fu) : su ≠ fu := by
  obtain ⟨ts, hs1, hslen⟩ := @derive_explicit u "start".data r hu hsch hnet
  obtain ⟨tf, hf1, hflen⟩ := @derive_explicit u "fail".data r hu hsch hnet
  rw [hs1] at hsu
  rw [hf1] at hfu
  have hsu2 : su = r.scheme ++ ':' :: ts := (Except.ok.inj hsu).symm
  have hfu2 : fu = r.scheme ++ ':' :: tf := (Except.ok.inj hfu).symm
  intro heq
  have hlen := congrArg List.length heq
  rw [hsu2, hfu2] at hlen
  rw [hslen, hflen] at hlen
  have h5 : ("start".data : Chars).length = 5 := rfl
  have h4 : ("fail".data : Chars).length = 4 := rfl
  rw [h5, h4] at hlen
  omega

/-- A ping to a derived sub-URL always records exactly that request and never
raises. -/
theorem pingTrace_derived {u seg : Chars} {r : UrlComponents}
    (hu : urlparseE u = .ok r)
    (hsch : r.scheme = "http".data ∨ r.scheme = "https".data)
    (hnet : r.netloc ≠ []) :
    ∃ su, buildUrlWithPath u seg = .ok su ∧
      ∀ net d, pingTrace su net d = ([⟨su, d⟩], none) := by
  obtain ⟨tail, hb, _⟩ := @derive_explicit u seg r hu hsch hnet
  refine ⟨_, hb, ?_⟩
  intro net d
  have hst := splitTypeFn_scheme r.scheme tail hsch
  have hk : knownSchemes.contains r.scheme = true := by
    rcases hsch with h | h <;> rw [h] <;> decide
  unfold pingTrace httpRequest
  rw [hst]
  dsimp only
  rw [if_pos hk]
  cases net <;> rfl

/-- A ping to the raw configured url records exactly that request and never
raises, whenever the url parses with an http/https scheme. -/
theorem pingTrace_raw {u : Chars} {r : UrlComponents} (hu : urlparseE u = .ok r)
    (hsch : r.scheme = "http".data ∨ r.scheme = "https".data)
    (net : NetOutcome) (d : Option Chars) :
    pingTrace u net d = ([⟨u, d⟩], none) := by
  have hne : r.scheme ≠ [] := by rcases hsch with h | h <;> rw [h] <;> decide
  obtain ⟨st, hst⟩ := splitTypeFn_of_valid hu hne
  rcases st with ⟨sch, rest⟩
  unfold pingTrace httpRequest
  rw [hst]
  dsimp only
  by_cases hk : knownSchemes.contains sch = true
  · rw [if_pos hk]
    cases net <;> rfl
  · rw [if_neg hk]

end HCD

namespace HCD

/-- C6: for every base URL accepted by the configuration validity check
(http/https scheme and nonempty host), deriving a `start` or `fail` sub-URL
appends the segment to the path with exactly one `/` separator — none when
the path already ends in `/` — and preserves the scheme, host, params, query
string and fragment unchanged. -/
theorem C6_derive_suburl_view (u seg : Chars) (r : UrlComponents)
    (hu : urlparseE u = .ok r)
    (hsch : r.scheme = "http".data ∨ r.scheme = "https".data)
    (hnet : r.netloc ≠ [])
    (hseg : seg = "start".data ∨ seg = "fail".data) :
    buildUrlWithPath u seg = .ok (urlunparse ⟨r.scheme, r.netloc,
      r.path ++ (if endsWithSlash r.path then [] else ['/']) ++ seg,
      r.params, r.query, r.fragment⟩) ∧
    urlparseE (urlunparse ⟨r.scheme, r.netloc,
        r.path ++ (if endsWithSlash r.path then [] else ['/']) ++ seg,
        r.params, r.query, r.fragment⟩) =
      .ok ⟨r.scheme, r.netloc,
        r.path ++ (if endsWithSlash r.path then [] else ['/']) ++ seg,
        r.params, r.query, r.fragment⟩ :=
  derive_suburl_core u seg r hu hsch hnet hseg

/-- A derived sub-URL is never the base url itself: its path is strictly
longer. -/
theorem derive_ne_base {u seg : Chars} {r : UrlComponents}
    (hu : urlparseE u = .ok r)
    (hsch : r.scheme = "http".data ∨ r.scheme = "https".data)
    (hnet : r.netloc ≠ [])
    (hseg : seg = "start".data ∨ seg = "fail".data)
    {du : Chars} (hd : buildUrlWithPath u seg = .ok du) : u ≠ du := by
  obtain ⟨h1, h2⟩ := derive_suburl_core u seg r hu hsch hnet hseg
  rw [h1] at hd
  have hdu : du = urlunparse ⟨r.scheme, r.netloc,
      r.path ++ (if endsWithSlash r.path then [] else ['/']) ++ seg,
      r.params, r.query, r.fragment⟩ := (Except.ok.inj hd).symm
  intro he
  rw [he, hdu, h2] at hu
  have hcomps := Except.ok.inj hu
  have hpath := congrArg UrlComponents.path hcomps
  dsimp only at hpath
  have hlen := congrArg List.length hpath
  rw [List.length_append, List.length_append] at hlen
  have hslen : 0 < seg.length := by rcases hseg with h | h <;> subst h <;> decide
  omega

end HCD

namespace HCD

/-- C6 witness: the claim's own example — deriving `start` from
`https://h/abc?create=1` yields `https://h/abc/start?create=1` with the query
preserved. -/
theorem C6_derive_suburl_view_witness :
    buildUrlWithPath "https://h/abc?create=1".data "start".data =
      .ok "https://h/abc/start?create=1".data ∧
    buildUrlWithPath "https://h/u/".data "fail".data = .ok "https://h/u/fail".data ∧
    urlparseE "https://h/abc/start?create=1".data =
      .ok ⟨"https".data, "h".data, "/abc/start".data, [], "create=1".data, []⟩ := by
  refine ⟨?_, ?_, ?_⟩
  · have h := C6_derive_suburl_view "https://h/abc?create=1".data "start".data
      ⟨"https".data, "h".data, "/abc".data, [], "create=1".data, []⟩
      (by decide) (by decide) (by decide) (by decide)
    rw [h.1]
    decide
  · have h := C6_derive_suburl_view "https://h/u/".data "fail".data
      ⟨"https".data, "h".data, "/u/".data, [], [], []⟩
      (by decide) (by decide) (by decide) (by decide)
    rw [h.1]
    decide
  · decide

end HCD


namespace HCD

/-- Full evaluation of the wrapper on a valid configuration: the start and
fail sub-URLs exist and are distinct from each other and from the base url,
and the trace is determined by the two flags, the outcome and the
diagnostics encoding. -/
theorem wrapper_eval {cfg : HealthcheckConfig} {env : Env} {u : Chars}
    (hvalid : configBoolE cfg env = .ok true)
    (hres : resolveUrl cfg env = some u)
    (outcome : Except PyExc Diag) (net : NetEnv) :
    ∃ su fu,
      buildUrlWithPath u "start".data = .ok su ∧
      buildUrlWithPath u "fail".data = .ok fu ∧
      su ≠ fu ∧ u ≠ su ∧ u ≠ fu ∧
      healthcheckWrapper cfg env outcome net =
        ((if resolveFlag cfg.send_start "HEALTHCHECK_SEND_START".data env
          then [⟨su, none⟩] else []) ++
          (match outcome with
           | .error _ => [HttpReq.mk fu none]
           | .ok r =>
             match (if resolveFlag cfg.send_diagnostics
                 "HEALTHCHECK_SEND_DIAGNOSTICS".data env
               then validateDiagnostics r else .ok none) with
             | .error _ => [HttpReq.mk fu none]
             | .ok d => [HttpReq.mk u d]),
         match outcome with
         | .error e => .error e
         | .ok r =>
           match (if resolveFlag cfg.send_diagnostics
               "HEALTHCHECK_SEND_DIAGNOSTICS".data env
             then validateDiagnostics r else .ok none) with
           | .error e => .error e
           | .ok _ => .ok r) := by
  obtain ⟨u', rc, hres', hune, hp, hsch, hnet⟩ := valid_config_unpack hvalid
  rw [hres] at hres'
  have hu' : u' = u := (Option.some.inj hres').symm
  subst hu'
  obtain ⟨su, hsu, hping_s⟩ := @pingTrace_derived u' "start".data rc hp hsch hnet
  obtain ⟨fu, hfu, hping_f⟩ := @pingTrace_derived u' "fail".data rc hp hsch hnet
  refine ⟨su, fu, hsu, hfu, start_fail_ne hp hsch hnet hsu hfu,
    derive_ne_base hp hsch hnet (Or.inl rfl) hsu,
    derive_ne_base hp hsch hnet (Or.inr rfl) hfu, ?_⟩
  unfold healthcheckWrapper
  rw [hres]
  dsimp only
  by_cases hss : resolveFlag cfg.send_start "HEALTHCHECK_SEND_START".data env = true
  · rw [if_pos hss, if_pos hss, hsu]
    dsimp only
    rw [hping_s net.onStart none]
    dsimp only
    cases outcome with
    | error e =>
      dsimp only
      unfold failPath
      rw [hfu]
      dsimp only
      rw [hping_f net.onFail none]
    | ok r =>
      dsimp only
      rcases hd : (if resolveFlag cfg.send_diagnostics
          "HEALTHCHECK_SEND_DIAGNOSTICS".data env
        then validateDiagnostics r else .ok none) with e | d
      · dsimp only
        unfold failPath
        rw [hfu]
        dsimp only
        rw [hping_f net.onFail none]
      · dsimp only
        rw [pingTrace_raw hp hsch net.onMain d]
  · rw [if_neg hss, if_neg hss]
    dsimp only
    cases outcome with
    | error e =>
      dsimp only
      unfold failPath
      rw [hfu]
      dsimp only
      rw [hping_f net.onFail none]
    | ok r =>
      dsimp only
      rcases hd : (if resolveFlag cfg.send_diagnostics
          "HEALTHCHECK_SEND_DIAGNOSTICS".data env
        then validateDiagnostics r else .ok none) with e | d
      · dsimp only
        unfold failPath
        rw [hfu]
        dsimp only
        rw [hping_f net.onFail none]
      · dsimp only
        rw [pingTrace_raw hp hsch net.onMain d]

end HCD

namespace HCD

/-- C1: for every valid configuration, if the wrapped function raises any
exception, exactly one request is issued to the derived fail URL, with no
body, and the wrapped call re-raises the very same exception. -/
theorem C1_exception_fail_ping (cfg : HealthcheckConfig) (env : Env)
    (u fu : Chars) (e : PyExc) (net : NetEnv)
    (hvalid : configBoolE cfg env = .ok true)
    (hres : resolveUrl cfg env = some u)
    (hfu : buildUrlWithPath u "fail".data = .ok fu) :
    (healthcheckWrapper cfg env (.error e) net).1.filter
      (fun req => req.url == fu) = [⟨fu, none⟩] ∧
    (healthcheckWrapper cfg env (.error e) net).2 = .error e := by
  obtain ⟨su, fu', hsu, hfu', hne, hus, huf, hw⟩ :=
    wrapper_eval hvalid hres (.error e) net
  rw [hfu'] at hfu
  have hfe : fu' = fu := Except.ok.inj hfu
  rw [hfe] at hw hne
  rw [hw]
  refine ⟨?_, rfl⟩
  dsimp only
  have h1 : (su == fu) = false := beq_eq_false_iff_ne.mpr hne
  by_cases hss : resolveFlag cfg.send_start "HEALTHCHECK_SEND_START".data env = true
  · rw [if_pos hss]
    simp [List.filter, h1]
  · rw [if_neg hss]
    simp [List.filter]

end HCD

namespace HCD

/-- C1 witness: a raised exception pings only `https://h/u/fail` and is
re-raised with its type and message intact. -/
theorem C1_exception_fail_ping_witness :
    configBoolE ⟨some "https://h/u".data, none, none⟩ emptyEnv = .ok true ∧
    resolveUrl ⟨some "https://h/u".data, none, none⟩ emptyEnv =
      some "https://h/u".data ∧
    buildUrlWithPath "https://h/u".data "fail".data =
      .ok "https://h/u/fail".data ∧
    ((healthcheckWrapper ⟨some "https://h/u".data, none, none⟩ emptyEnv
        (.error (.userExc "Exception".data "boom".data))
        ⟨.goodResponse, .goodResponse, .goodResponse⟩).1.filter
      (fun req => req.url == "https://h/u/fail".data) =
      [⟨"https://h/u/fail".data, none⟩] ∧
    (healthcheckWrapper ⟨some "https://h/u".data, none, none⟩ emptyEnv
        (.error (.userExc "Exception".data "boom".data))
        ⟨.goodResponse, .goodResponse, .goodResponse⟩).2 =
      .error (.userExc "Exception".data "boom".data)) :=
  ⟨by decide, by decide, by decide,
   C1_exception_fail_ping ⟨some "https://h/u".data, none, none⟩ emptyEnv
     "https://h/u".data "https://h/u/fail".data
     (.userExc "Exception".data "boom".data)
     ⟨.goodResponse, .goodResponse, .goodResponse⟩
     (by decide) (by decide) (by decide)⟩

end HCD

namespace HCD

/-- C3 counterexample: with send_diagnostics on and a return value whose
form-encoding raises `ValueError` (a sequence holding a 3-tuple), the base
url is never pinged: the fail URL is pinged instead and `ValueError`
escapes, so the call neither issues a request to the base url nor returns
the value. -/
theorem C3_counterexample :
    configBoolE ⟨some "https://h/u".data, some false, some true⟩ emptyEnv =
      .ok true ∧
    healthcheckWrapper ⟨some "https://h/u".data, some false, some true⟩
        emptyEnv (.ok (.seq [.tup ["a".data, "b".data, "c".data]]))
        ⟨.goodResponse, .goodResponse, .goodResponse⟩ =
      ([⟨"https://h/u/fail".data, none⟩], .error .valueError) := by
  constructor
  · decide
  · decide

end HCD

namespace HCD

/-- C3 (amended): for every valid configuration and normal return R,
whenever the diagnostics step does not raise — in particular always when
send_diagnostics is off — the wrapped call issues a start ping iff
send_start is set, then exactly one request to the base url, in that order,
and returns R unchanged. -/
theorem C3_success_trace (cfg : HealthcheckConfig) (env : Env)
    (u su : Chars) (res : Diag) (d : Option Chars) (net : NetEnv)
    (hvalid : configBoolE cfg env = .ok true)
    (hres : resolveUrl cfg env = some u)
    (hsu : buildUrlWithPath u "start".data = .ok su)
    (hdiag : (if resolveFlag cfg.send_diagnostics
        "HEALTHCHECK_SEND_DIAGNOSTICS".data env
      then validateDiagnostics res else .ok none) = .ok d) :
    healthcheckWrapper cfg env (.ok res) net =
      ((if resolveFlag cfg.send_start "HEALTHCHECK_SEND_START".data env
        then [⟨su, none⟩] else []) ++ [⟨u, d⟩], .ok res) ∧
    (healthcheckWrapper cfg env (.ok res) net).1.filter
      (fun req => req.url == u) = [⟨u, d⟩] := by
  obtain ⟨su', fu, hsu', hfu, hne, hus, huf, hw⟩ :=
    wrapper_eval hvalid hres (.ok res) net
  rw [hsu'] at hsu
  have hse : su' = su := Except.ok.inj hsu
  rw [hse] at hw hus
  dsimp only at hw
  rw [hdiag] at hw
  dsimp only at hw
  rw [hw]
  refine ⟨rfl, ?_⟩
  have h1 : (su == u) = false := beq_eq_false_iff_ne.mpr (Ne.symm hus)
  by_cases hss : resolveFlag cfg.send_start "HEALTHCHECK_SEND_START".data env = true
  · rw [if_pos hss]
    simp [List.filter, h1]
  · rw [if_neg hss]
    simp [List.filter]

end HCD

namespace HCD

/-- C3 witness: with send_start on and send_diagnostics off the trace is the
start ping followed by one bodiless ping to the base url, in order, and the
value comes back unchanged; the hypotheses hold at this concrete input. -/
theorem C3_success_trace_witness :
    configBoolE ⟨some "https://h/u".data, some true, some false⟩ emptyEnv =
      .ok true ∧
    (healthcheckWrapper ⟨some "https://h/u".data, some true, some false⟩
        emptyEnv (.ok (.mapping [])) ⟨.goodResponse, .goodResponse, .goodResponse⟩ =
      ((if resolveFlag (some true) "HEALTHCHECK_SEND_START".data emptyEnv
        then [⟨"https://h/u/start".data, none⟩] else []) ++
        [⟨"https://h/u".data, none⟩], .ok (.mapping [])) ∧
    (healthcheckWrapper ⟨some "https://h/u".data, some true, some false⟩
        emptyEnv (.ok (.mapping [])) ⟨.goodResponse, .goodResponse, .goodResponse⟩).1.filter
      (fun req => req.url == "https://h/u".data) =
      [⟨"https://h/u".data, none⟩]) :=
  ⟨by decide,
   C3_success_trace ⟨some "https://h/u".data, some true, some false⟩ emptyEnv
     "https://h/u".data "https://h/u/start".data (.mapping []) none
     ⟨.goodResponse, .goodResponse, .goodResponse⟩
     (by decide) (by decide) (by decide) (by decide)⟩

end HCD

namespace HCD

/-- C7 counterexample: send_diagnostics is on and the return value is a
sequence holding a 1-tuple — an unsupported shape — yet the success ping is
not sent bodiless: no request reaches the base url and the encoding
`ValueError` propagates to the caller. -/
theorem C7_counterexample :
    configBoolE ⟨some "https://h/d".data, some false, some true⟩ emptyEnv =
      .ok true ∧
    urlencodeE (.seq [.tup ["x".data]]) = .error .valueError ∧
    healthcheckWrapper ⟨some "https://h/d".data, some false, some true⟩
        emptyEnv (.ok (.seq [.tup ["x".data]]))
        ⟨.goodResponse, .goodResponse, .goodResponse⟩ =
      ([⟨"https://h/d/fail".data, none⟩], .error .valueError) := by
  refine ⟨?_, ?_, ?_⟩
  · decide
  · decide
  · decide

end HCD

namespace HCD

/-- C7 (amended): with send_diagnostics on, a value that form-encodes gives
a success ping whose body is exactly the encoded bytes; an encoding
`TypeError` (e.g. a plain string) is swallowed and the ping goes out with no
body; but any other encoding exception is not caught: the fail URL is pinged
and the exception propagates.  The mapping `{"foo": "bar"}` encodes to
`foo=bar`. -/
theorem C7_diagnostics (cfg : HealthcheckConfig) (env : Env) (u : Chars)
    (res : Diag) (net : NetEnv)
    (hvalid : configBoolE cfg env = .ok true)
    (hres : resolveUrl cfg env = some u)
    (hsd : resolveFlag cfg.send_diagnostics
      "HEALTHCHECK_SEND_DIAGNOSTICS".data env = true)
    (hss : resolveFlag cfg.send_start
      "HEALTHCHECK_SEND_START".data env = false) :
    (∀ enc, urlencodeE res = .ok enc →
      healthcheckWrapper cfg env (.ok res) net = ([⟨u, some enc⟩], .ok res)) ∧
    (urlencodeE res = .error .typeError →
      healthcheckWrapper cfg env (.ok res) net = ([⟨u, none⟩], .ok res)) ∧
    (∀ e, urlencodeE res = .error e → e ≠ .typeError →
      ∃ fu, buildUrlWithPath u "fail".data = .ok fu ∧ u ≠ fu ∧
        healthcheckWrapper cfg env (.ok res) net = ([⟨fu, none⟩], .error e)) ∧
    urlencodeE (.mapping [("foo".data, "bar".data)]) = .ok "foo=bar".data := by
  obtain ⟨su, fu, hsu, hfu, hne, hus, huf, hw⟩ :=
    wrapper_eval hvalid hres (.ok res) net
  dsimp only at hw
  rw [if_neg (by simp [hss]), if_pos hsd] at hw
  refine ⟨?_, ?_, ?_, by decide⟩
  · intro enc henc
    have hv : validateDiagnostics res = .ok (some enc) := by
      unfold validateDiagnostics
      rw [henc]
    rw [hv] at hw
    dsimp only at hw
    rw [hw, List.nil_append]
  · intro henc
    have hv : validateDiagnostics res = .ok none := by
      unfold validateDiagnostics
      rw [henc]
    rw [hv] at hw
    dsimp only at hw
    rw [hw, List.nil_append]
  · intro e henc hnt
    have hv : validateDiagnostics res = .error e := by
      unfold validateDiagnostics
      rw [henc]
      cases e with
      | typeError => exact absurd rfl hnt
      | valueError => rfl
      | assertionError => rfl
      | userExc ty msg => rfl
    rw [hv] at hw
    dsimp only at hw
    refine ⟨fu, hfu, huf, ?_⟩
    rw [hw, List.nil_append]

end HCD

namespace HCD

/-- C7 witness: the mapping gives body `foo=bar`; the plain string `nope`
fails to encode with `TypeError` and the ping is sent with no body and no
error. -/
theorem C7_diagnostics_witness :
    configBoolE ⟨some "https://h/d".data, none, some true⟩ emptyEnv = .ok true ∧
    healthcheckWrapper ⟨some "https://h/d".data, none, some true⟩ emptyEnv
        (.ok (.mapping [("foo".data, "bar".data)]))
        ⟨.goodResponse, .goodResponse, .goodResponse⟩ =
      ([⟨"https://h/d".data, some "foo=bar".data⟩],
       .ok (.mapping [("foo".data, "bar".data)])) ∧
    healthcheckWrapper ⟨some "https://h/d".data, none, some true⟩ emptyEnv
        (.ok (.strVal "nope".data))
        ⟨.goodResponse, .goodResponse, .goodResponse⟩ =
      ([⟨"https://h/d".data, none⟩], .ok (.strVal "nope".data)) :=
  ⟨by decide,
   (C7_diagnostics ⟨some "https://h/d".data, none, some true⟩ emptyEnv
     "https://h/d".data (.mapping [("foo".data, "bar".data)])
     ⟨.goodResponse, .goodResponse, .goodResponse⟩ (by decide) (by decide)
     (by decide) (by decide)).1 "foo=bar".data (by decide),
   (C7_diagnostics ⟨some "https://h/d".data, none, some true⟩ emptyEnv
     "https://h/d".data (.strVal "nope".data)
     ⟨.goodResponse, .goodResponse, .goodResponse⟩ (by decide) (by decide)
     (by decide) (by decide)).2.1 (by decide)⟩

end HCD
